import Mathlib

/-!
Verification of the Normalization_Engine backend core: a shallow embedding of
the dependency detectors (`ai_dependency_detector.py`,
`improved_ai_dependency_detector.py`), the data model (`table_model.py`,
`analysis_result.py`) and the normalization engine
(`normalization_engine.py`), together with theorems settling the frozen
claims about the specification.

Modelling conventions:
* Pandas cell values are modelled by `Val` (missing cells are `Val.null`,
  matching NaN); Python `str()` conversion is `pyStr`.
* Python `float` arithmetic on confidences is modelled exactly over `ℚ`
  (all operations involved are ratios and fixed decimal weights).
* The mutual-information / entropy score of `_calculate_mvd_confidence`
  uses `log2` over floats and is not representable over `ℚ`; it is taken
  as an explicit parameter `mvdScore` of the detector.  No claim depends
  on its value.
* Python dict iteration order is insertion order and is modelled by
  association lists; Python `set` iteration order is unspecified and is
  modelled by sorted order where the code converts a set to a list.
-/

namespace NormEngine

attribute [local semireducible] Rat.mul Rat.add Rat.inv Rat.sub Rat.ofScientific

/-- A pandas cell value: NaN/None (`null`), a string, an integer, or an
opaque collection value (list/dict/set), which the 1NF checks test for. -/
inductive Val where
  | null
  | str (s : String)
  | int (n : Int)
  | coll (tag : Nat)
  deriving DecidableEq

/-- Python `str()` of a cell value as used by `.astype(str)`; NaN prints as
"nan".  Collection values cannot occur in parsed spreadsheet data; they are
given an opaque rendering. -/
def pyStr : Val → String
  | .null => "nan"
  | .str s => s
  | .int n => toString n
  | .coll t => "[coll " ++ toString t ++ "]"

/-- A pandas DataFrame built from the table's row dictionaries: a column
list and one value list per row (missing keys are NaN, i.e. `Val.null`). -/
structure DFrame where
  cols : List String
  rows : List (List Val)
  deriving DecidableEq

namespace DFrame

/-- Cell of row `r` at column `c` of `df` (NaN when absent). -/
def cell (df : DFrame) (r : List Val) (c : String) : Val :=
  r.getD (df.cols.indexOf c) Val.null

/-- The column series `df[c]`. -/
def colVals (df : DFrame) (c : String) : List Val :=
  df.rows.map (fun r => df.cell r c)

/-- `len(df)`. -/
def nRows (df : DFrame) : Nat := df.rows.length

end DFrame

/-- `Series.nunique()`: number of distinct non-null values. -/
def nuniqueVals (vs : List Val) : Nat :=
  ((vs.filter (fun v => v ≠ Val.null)).dedup).length

/-- `df[c].nunique()`. -/
def nuniqueCol (df : DFrame) (c : String) : Nat :=
  nuniqueVals (df.colVals c)

/-- `df[c].isnull().any()`. -/
def hasNullCol (df : DFrame) (c : String) : Bool :=
  (df.colVals c).any (fun v => v = Val.null)

/-- `nunique()` of a string series (strings are never NaN). -/
def nuniqueStr (ss : List String) : Nat := ss.dedup.length

/-- One row of `df[cs].astype(str).agg(join on underscore, axis=1)`. -/
def aggJoinRow (df : DFrame) (cs : List String) (r : List Val) : String :=
  String.intercalate "_" (cs.map (fun c => pyStr (df.cell r c)))

/-- `df[cs].astype(str).agg(join on underscore, axis=1)`: the composite key
string series for a column list. -/
def aggJoin (df : DFrame) (cs : List String) : List String :=
  df.rows.map (aggJoinRow df cs)

/-- Python `min(x, y)` on exact rationals (spelled out so that it reduces
definitionally). -/
def ratMin (a b : ℚ) : ℚ := if a ≤ b then a else b

/-- The floor of an exact rational (spelled out so that it reduces
definitionally). -/
def ratFloor (q : ℚ) : ℤ := q.num.fdiv q.den

/-- SQL data types (`table_model.DataType`). -/
inductive DataType where
  | INTEGER | BIGINT | DECIMAL | VARCHAR | TEXT | DATE | DATETIME | BOOLEAN
  deriving DecidableEq

/-- A database column (`table_model.Column`). -/
structure Column where
  name : String
  data_type : DataType
  max_length : Option Nat := none
  nullable : Bool := true
  uniqueFlag : Bool := false
  sample_values : List Val := []
  deriving DecidableEq

/-- A functional dependency X → Y with confidence
(`table_model.FunctionalDependency`). -/
structure FunctionalDependency where
  determinant : Finset String
  dependent : Finset String
  confidence : ℚ := 1
  deriving DecidableEq

/-- A multi-valued dependency X →→ Y with confidence
(`table_model.MultiValuedDependency`). -/
structure MultiValuedDependency where
  determinant : Finset String
  dependent : Finset String
  confidence : ℚ := 1
  deriving DecidableEq

/-- A database table (`table_model.Table`).  `foreign_keys` is the mapping
column → (referenced table, referenced column); `data` is the sample-row
frame the detectors run on. -/
structure Table where
  name : String
  columns : List Column
  primary_key : Finset String := ∅
  candidate_keys : List (Finset String) := []
  foreign_keys : List (String × String × String) := []
  functional_dependencies : List FunctionalDependency := []
  multi_valued_dependencies : List MultiValuedDependency := []
  data : DFrame := ⟨[], []⟩
  deriving DecidableEq

namespace Table

/-- `Table.get_column`. -/
def getColumn (t : Table) (n : String) : Option Column :=
  t.columns.find? (fun c => c.name = n)

/-- `Table.get_column_names`. -/
def getColumnNames (t : Table) : List String :=
  t.columns.map (fun c => c.name)

end Table

/-! ### Original detector: `ai_dependency_detector.AIDependencyDetector` -/

/-- Dependent-column value tuples of the rows (among `rows`) whose
determinant key string equals `v` (`df[det_key == det_val][dependent]`). -/
def depTuplesAt (df : DFrame) (rows : List (List Val)) (dependent : List String)
    (detKey : List String) (v : String) : List (List Val) :=
  ((rows.zip detKey).filter (fun p => decide (p.2 = v))).map
    (fun p => dependent.map (fun c => df.cell p.1 c))

/-- `AIDependencyDetector._calculate_fd_confidence`: determination
coefficient discounted by the violating-group fraction, clamped to 1. -/
def fdConfidence (df : DFrame) (determinant dependent : List String) : ℚ :=
  let detKey := aggJoin df determinant
  let depKey := aggJoin df dependent
  let combinedKey := (detKey.zip depKey).map (fun p => p.1 ++ "_" ++ p.2)
  let uniqueDet := nuniqueStr detKey
  let uniqueCombined := nuniqueStr combinedKey
  if uniqueDet = 0 then 0
  else
    let confidence : ℚ := if uniqueCombined > 0 then (uniqueDet : ℚ) / uniqueCombined else 0
    let violations := (detKey.dedup).countP
      (fun v => decide (((depTuplesAt df df.rows dependent detKey v).dedup).length > 1))
    let violationPenalty : ℚ := (violations : ℚ) / uniqueDet
    ratMin (confidence * (1 - violationPenalty)) 1

/-- The FDs accepted by `AIDependencyDetector._detect_functional_dependencies`
before `_remove_redundant_fds`: all single-column pairs, then all two-column
composite determinants against every remaining column. -/
def rawFDsOrig (df : DFrame) (thr : ℚ) : List FunctionalDependency :=
  let singles := df.cols.flatMap (fun det =>
    df.cols.filterMap (fun dep =>
      if dep = det then none
      else
        let c := fdConfidence df [det] [dep]
        if thr ≤ c then some ⟨{det}, {dep}, c⟩ else none))
  let composites := (df.cols.sublistsLen 2).flatMap (fun detCols =>
    df.cols.filterMap (fun dep =>
      if dep ∈ detCols then none
      else
        let c := fdConfidence df detCols [dep]
        if thr ≤ c then some ⟨detCols.toFinset, {dep}, c⟩ else none))
  singles ++ composites

/-- The dict key used for FD deduplication: the (determinant, dependent)
pair of frozensets. -/
def fdPair (fd : FunctionalDependency) : Finset String × Finset String :=
  (fd.determinant, fd.dependent)

/-- One insertion into the `unique_fds` dict: a present key is overwritten
in place only by a strictly higher confidence; a new key is appended. -/
def dictInsert (m : List ((Finset String × Finset String) × FunctionalDependency))
    (fd : FunctionalDependency) :
    List ((Finset String × Finset String) × FunctionalDependency) :=
  if m.any (fun e => e.1 = fdPair fd) then
    m.map (fun e =>
      if e.1 = fdPair fd ∧ e.2.confidence < fd.confidence then (e.1, fd) else e)
  else m ++ [(fdPair fd, fd)]

/-- Shared body of both detectors' `_remove_redundant_fds`: drop trivial FDs
(dependent ⊆ determinant), then deduplicate by (determinant, dependent)
keeping the highest confidence, in dict insertion order. -/
def dedupByPair (fds : List FunctionalDependency) : List FunctionalDependency :=
  let filtered := fds.filter (fun fd => decide (¬ fd.dependent ⊆ fd.determinant))
  (filtered.foldl dictInsert []).map (fun e => e.2)

/-- `AIDependencyDetector._remove_redundant_fds`. -/
def removeRedundantFdsOrig (fds : List FunctionalDependency) : List FunctionalDependency :=
  dedupByPair fds

/-- `AIDependencyDetector._detect_functional_dependencies`. -/
def detectFDsOrig (df : DFrame) (thr : ℚ) : List FunctionalDependency :=
  removeRedundantFdsOrig (rawFDsOrig df thr)

/-- The determines-all-other-columns check of the original composite key
search (confidence at threshold against every column outside the combo). -/
def determinesAllOrig (df : DFrame) (combo : List String) (thr : ℚ) : Bool :=
  (df.cols.filter (fun c => decide (c ∉ combo))).all
    (fun other => decide (thr ≤ fdConfidence df combo [other]))

/-- The composite part of `AIDependencyDetector._detect_candidate_keys`:
combos of each size in turn, stopping at the first size that yields keys. -/
def compositeKeySearchOrig (df : DFrame) (thr : ℚ) : List Nat → List (Finset String)
  | [] => []
  | size :: rest =>
    if ((df.cols.sublistsLen size).filterMap (fun combo =>
        if nuniqueStr (aggJoin df combo) = df.nRows ∧ determinesAllOrig df combo thr
        then some combo.toFinset else none)) = []
    then compositeKeySearchOrig df thr rest
    else (df.cols.sublistsLen size).filterMap (fun combo =>
      if nuniqueStr (aggJoin df combo) = df.nRows ∧ determinesAllOrig df combo thr
      then some combo.toFinset else none)

/-- The single-column candidate keys of
`AIDependencyDetector._detect_candidate_keys`: row-unique null-free
columns. -/
def singlesOrig (df : DFrame) : List (Finset String) :=
  (df.cols.filter (fun c =>
      decide (nuniqueCol df c = df.nRows ∧ hasNullCol df c = false))).map
    (fun c => ({c} : Finset String))

/-- The pre-minimality candidate keys of
`AIDependencyDetector._detect_candidate_keys`: row-unique null-free single
columns, else composite combos of sizes 2 to `min(column count, 4)`. -/
def candidatesOrig (df : DFrame) (thr : ℚ) : List (Finset String) :=
  if singlesOrig df = [] then
    compositeKeySearchOrig df thr (List.range' 2 (min df.cols.length 4 - 1))
  else singlesOrig df

/-- The minimality pass shared by both detectors: remove keys containing
another key; if that empties the result, keep the pre-minimality set. -/
def minimalityPass (ks : List (Finset String)) : List (Finset String) :=
  let minimal := ks.filter (fun k => decide (¬ ks.any (fun o => o ≠ k ∧ o ⊆ k)))
  if minimal = [] then ks else minimal

/-- `AIDependencyDetector._detect_candidate_keys` (the `fds` argument is
unused by the source). -/
def detectKeysOrig (df : DFrame) (_fds : List FunctionalDependency) (thr : ℚ) :
    List (Finset String) :=
  minimalityPass (candidatesOrig df thr)

/-- `AIDependencyDetector._detect_multi_valued_dependencies`.  The
mutual-information score of `_calculate_mvd_confidence` runs over floats
(entropy with log2) and is taken as the parameter `mvdScore`. -/
def mvdsOrig (mvdScore : DFrame → List String → String → String → ℚ)
    (df : DFrame) (thr : ℚ) (candidateKeys : List (Finset String)) :
    List MultiValuedDependency :=
  candidateKeys.flatMap (fun key =>
    let keyList := key.sort (· ≤ ·)
    let otherCols := df.cols.filter (fun c => decide (c ∉ key))
    (otherCols.sublistsLen 2).filterMap (fun pair =>
      match pair with
      | [a, b] =>
        let c := mvdScore df keyList a b
        if thr ≤ c then some ⟨key, {a}, c⟩ else none
      | _ => none))

/-- Python `dict.get(c, c)` on an association list. -/
def applyNameMap (m : List (String × String)) (c : String) : String :=
  ((m.find? (fun p => decide (p.1 = c))).map (fun p => p.2)).getD c

/-- The `original_to_cleaned` mapping of `detect_all_dependencies`: column
name of each table column to the table's column-name list at the same index
(which is that very name). -/
def origToCleaned (t : Table) : List (String × String) :=
  (t.columns.map (fun c => c.name)).zip t.getColumnNames

/-- `AIDependencyDetector.detect_all_dependencies`: short-circuit on fewer
than 2 sample rows, else detect FDs, candidate keys and MVDs on the frame
and map the column names through `original_to_cleaned`. -/
def detectAllOrig (mvdScore : DFrame → List String → String → String → ℚ)
    (thr : ℚ) (t : Table) :
    List FunctionalDependency × List MultiValuedDependency × List (Finset String) :=
  if t.data.rows = [] ∨ t.data.nRows < 2 then ([], [], [])
  else
    let df := t.data
    let fds := detectFDsOrig df thr
    let keys := detectKeysOrig df fds thr
    let mvds := mvdsOrig mvdScore df thr keys
    let m := origToCleaned t
    let cleanedFds := fds.map (fun fd =>
      { determinant := fd.determinant.image (applyNameMap m)
        dependent := fd.dependent.image (applyNameMap m)
        confidence := fd.confidence })
    let cleanedKeys := keys.map (fun k => k.image (applyNameMap m))
    let cleanedMvds := mvds.map (fun mvd =>
      { determinant := mvd.determinant.image (applyNameMap m)
        dependent := mvd.dependent.image (applyNameMap m)
        confidence := mvd.confidence })
    (cleanedFds, cleanedMvds, cleanedKeys)

/-! ### Improved detector:
`improved_ai_dependency_detector.ImprovedAIDependencyDetector` -/

/-- Python `round(x, 3)` (half-to-even), taken exactly over `ℚ`. -/
def roundHalfEven (q : ℚ) : ℤ :=
  let f := ratFloor q
  let r := q - f
  if r < 1 / 2 then f
  else if 1 / 2 < r then f + 1
  else if f % 2 = 0 then f else f + 1

/-- `round(confidence, 3)` applied to stored improved-FD confidences. -/
def round3 (q : ℚ) : ℚ := (roundHalfEven (q * 1000) : ℚ) / 1000

/-- The most frequent count of a value list (`value_counts().iloc[0]`,
0 when empty). -/
def topCount (vs : List Val) : Nat :=
  ((vs.dedup).map (fun x => vs.count x)).foldr max 0

/-- `ImprovedAIDependencyDetector._calculate_fd_confidence_improved`:
rows with a null on either side are dropped, then a weighted combination of
violation score, determination coefficient and consistency ratio. -/
def fdConfidenceImp (df : DFrame) (determinant dependent : List String) : ℚ :=
  let cleanRows := df.rows.filter (fun r =>
    (determinant ++ dependent).all (fun c => decide (df.cell r c ≠ Val.null)))
  if cleanRows.length = 0 then 0
  else
    let detKey :=
      if determinant.length = 1 then
        cleanRows.map (fun r => pyStr (df.cell r (determinant.headD "")))
      else cleanRows.map (aggJoinRow df determinant)
    let depKey :=
      if dependent.length = 1 then
        cleanRows.map (fun r => pyStr (df.cell r (dependent.headD "")))
      else cleanRows.map (aggJoinRow df dependent)
    let totalChecks := (detKey.dedup).length
    let violations := (detKey.dedup).countP
      (fun v => decide (((depTuplesAt df cleanRows dependent detKey v).dedup).length > 1))
    if totalChecks = 0 then 0
    else
      let violationScore : ℚ := 1 - (violations : ℚ) / totalChecks
      let uniqueDet := nuniqueStr detKey
      let combinedKey := (detKey.zip depKey).map (fun p => p.1 ++ "_" ++ p.2)
      let uniqueCombined := nuniqueStr combinedKey
      let detCoef : ℚ := if uniqueCombined > 0 then (uniqueDet : ℚ) / uniqueCombined else 0
      let consistencyScores : List ℚ := (detKey.dedup).filterMap (fun v =>
        let subset := depTuplesAt df cleanRows dependent detKey v
        if subset.length > 0 then
          if dependent.length = 1 then
            some ((topCount (subset.map (fun t => t.headD Val.null)) : ℚ) / subset.length)
          else
            some ((subset.countP (fun t => decide (subset.count t > 1)) : ℚ) / subset.length)
        else none)
      let avgConsistency : ℚ :=
        if consistencyScores = [] then 0
        else consistencyScores.sum / consistencyScores.length
      ratMin (violationScore * (2 / 5) + detCoef * (3 / 10) + avgConsistency * (3 / 10)) 1

/-- The FDs accepted by
`ImprovedAIDependencyDetector._detect_functional_dependencies_improved`
before `_remove_redundant_fds`: single determinants (skipping all-unique
columns), then — only when fewer FDs than half the column count were found —
two-column composites, skipping combos whose combined key covers more than
80 percent of the rows. -/
def rawFDsImp (df : DFrame) (thr : ℚ) : List FunctionalDependency :=
  let singles := df.cols.flatMap (fun det =>
    if nuniqueCol df det = df.nRows then []
    else df.cols.filterMap (fun dep =>
      if dep = det then none
      else if thr ≤ fdConfidenceImp df [det] [dep] then
        some ⟨{det}, {dep}, round3 (fdConfidenceImp df [det] [dep])⟩
      else none))
  let composites :=
    if 2 * singles.length < df.cols.length then
      (df.cols.sublistsLen 2).flatMap (fun detCols =>
        if df.nRows * 4 < nuniqueStr (aggJoin df detCols) * 5 then []
        else df.cols.filterMap (fun dep =>
          if dep ∈ detCols then none
          else if thr ≤ fdConfidenceImp df detCols [dep] then
            some ⟨detCols.toFinset, {dep}, round3 (fdConfidenceImp df detCols [dep])⟩
          else none))
    else []
  singles ++ composites

/-- Stable insertion of an FD into a confidence-descending list. -/
def insertByConfDesc (fd : FunctionalDependency) :
    List FunctionalDependency → List FunctionalDependency
  | [] => [fd]
  | g :: gs =>
    if g.confidence ≤ fd.confidence then fd :: g :: gs
    else g :: insertByConfDesc fd gs

/-- Python's stable `sort(key=confidence, reverse=True)`. -/
def sortByConfDesc (fds : List FunctionalDependency) : List FunctionalDependency :=
  fds.foldr insertByConfDesc []

/-- `ImprovedAIDependencyDetector._remove_redundant_fds`: trivial-FD filter
and by-pair deduplication as in the base detector, then sort by descending
confidence. -/
def removeRedundantFdsImp (fds : List FunctionalDependency) : List FunctionalDependency :=
  sortByConfDesc (dedupByPair fds)

/-- `ImprovedAIDependencyDetector._detect_functional_dependencies_improved`. -/
def detectFDsImp (df : DFrame) (thr : ℚ) : List FunctionalDependency :=
  removeRedundantFdsImp (rawFDsImp df thr)

/-- Method 1 of `_detect_candidate_keys_improved`: row-unique null-free
single columns that determine every other column at the threshold. -/
def singleKeysImp (df : DFrame) (thr : ℚ) : List (Finset String) :=
  df.cols.filterMap (fun c =>
    if hasNullCol df c then none
    else if nuniqueCol df c = df.nRows then
      if (df.cols.filter (fun o => decide (o ≠ c))).all
          (fun o => decide (thr ≤ fdConfidenceImp df [c] [o]))
      then some ({c} : Finset String) else none
    else none)

/-- Method 2 of `_detect_candidate_keys_improved`: null-free row-unique
composites determining all remaining columns, smallest size first, stopping
at the first size that yields keys. -/
def compositeKeySearchImp (df : DFrame) (thr : ℚ) : List Nat → List (Finset String)
  | [] => []
  | size :: rest =>
    if ((df.cols.sublistsLen size).filterMap (fun combo =>
        if combo.any (fun c => hasNullCol df c) then none
        else if nuniqueStr (aggJoin df combo) = df.nRows then
          if (df.cols.filter (fun o => decide (o ∉ combo))).all
              (fun o => decide (thr ≤ fdConfidenceImp df combo [o]))
          then some combo.toFinset else none
        else none)) = []
    then compositeKeySearchImp df thr rest
    else (df.cols.sublistsLen size).filterMap (fun combo =>
      if combo.any (fun c => hasNullCol df c) then none
      else if nuniqueStr (aggJoin df combo) = df.nRows then
        if (df.cols.filter (fun o => decide (o ∉ combo))).all
            (fun o => decide (thr ≤ fdConfidenceImp df combo [o]))
        then some combo.toFinset else none
      else none)

/-- One pass of the FD-closure loop of Method 3: union in the dependents of
every FD whose determinant is already covered. -/
def closureStep (fds : List FunctionalDependency) (determined : Finset String) :
    Finset String :=
  fds.foldl (fun acc fd =>
    if fd.determinant ⊆ acc ∧ ¬ fd.dependent ⊆ acc then acc ∪ fd.dependent else acc)
    determined

/-- The bounded closure loop of Method 3 (`max_iterations = 10`): iterate
passes until a pass changes nothing or the bound is reached. -/
def closureIter (fds : List FunctionalDependency) : Nat → Finset String → Finset String
  | 0, d => d
  | n + 1, d =>
    let d2 := closureStep fds d
    if d2 = d then d else closureIter fds n d2

/-- Method 3 of `_detect_candidate_keys_improved`: column sets whose
FD-closure covers all columns and whose values are observably row-unique,
smallest size first, stopping at the first size that yields keys. -/
def closureKeySearchImp (df : DFrame) (fds : List FunctionalDependency) :
    List Nat → List (Finset String)
  | [] => []
  | size :: rest =>
    if ((df.cols.sublistsLen size).filterMap (fun combo =>
        if closureIter fds 10 combo.toFinset = df.cols.toFinset then
          match combo with
          | [c] => if nuniqueCol df c = df.nRows then some combo.toFinset else none
          | _ => if nuniqueStr (aggJoin df combo) = df.nRows then some combo.toFinset else none
        else none)) = []
    then closureKeySearchImp df fds rest
    else (df.cols.sublistsLen size).filterMap (fun combo =>
      if closureIter fds 10 combo.toFinset = df.cols.toFinset then
        match combo with
        | [c] => if nuniqueCol df c = df.nRows then some combo.toFinset else none
        | _ => if nuniqueStr (aggJoin df combo) = df.nRows then some combo.toFinset else none
      else none)

/-- The pre-minimality candidate keys of
`ImprovedAIDependencyDetector._detect_candidate_keys_improved`: Method 1,
else Method 2 (sizes 2 to `min(column count, 5)`), else — when FDs exist —
Method 3 (sizes 1 to `min(column count + 1, 6) - 1`). -/
def candidatesImp (df : DFrame) (fds : List FunctionalDependency) (thr : ℚ) :
    List (Finset String) :=
  if singleKeysImp df thr ≠ [] then singleKeysImp df thr
  else if compositeKeySearchImp df thr (List.range' 2 (min df.cols.length 5 - 1)) ≠ [] then
    compositeKeySearchImp df thr (List.range' 2 (min df.cols.length 5 - 1))
  else if fds ≠ [] then
    closureKeySearchImp df fds (List.range' 1 (min (df.cols.length + 1) 6 - 1))
  else []

/-- `ImprovedAIDependencyDetector._detect_candidate_keys_improved`. -/
def detectKeysImp (df : DFrame) (fds : List FunctionalDependency) (thr : ℚ) :
    List (Finset String) :=
  minimalityPass (candidatesImp df fds thr)

/-- `ImprovedAIDependencyDetector.detect_all_dependencies`: short-circuit on
fewer than `min_rows_for_analysis = 3` rows, else detect FDs and candidate
keys on the frame built from the row dictionaries (the `column_names`
argument is unused by the source). -/
def detectAllImp (df : DFrame) (_columnNames : List String) (thr : ℚ) :
    List FunctionalDependency × List (Finset String) :=
  if df.rows = [] ∨ df.nRows < 3 then ([], [])
  else
    let fds := detectFDsImp df thr
    (fds, detectKeysImp df fds thr)

/-! ### Normalization engine: `normalization_engine.NormalizationEngine`
and the result model of `analysis_result.py` -/

/-- `analysis_result.NormalForm`: an enum whose values are the display
strings — the engine compares these strings with Python `<`. -/
inductive NormalForm where
  | UNNORMALIZED | FIRST_NF | SECOND_NF | THIRD_NF | BCNF | FOURTH_NF | FIFTH_NF
  deriving DecidableEq

/-- The enum `value` strings of `NormalForm`. -/
def nfValue : NormalForm → String
  | .UNNORMALIZED => "Unnormalized"
  | .FIRST_NF => "1NF"
  | .SECOND_NF => "2NF"
  | .THIRD_NF => "3NF"
  | .BCNF => "BCNF"
  | .FOURTH_NF => "4NF"
  | .FIFTH_NF => "5NF"

/-- Python's lexicographic `<` on character lists (by code point). -/
def charListLt : List Char → List Char → Bool
  | [], [] => false
  | [], _ :: _ => true
  | _ :: _, [] => false
  | a :: as, b :: bs =>
    if a.val < b.val then true
    else if b.val < a.val then false
    else charListLt as bs

/-- Python's `<` on strings. -/
def pyStrLt (a b : String) : Bool := charListLt a.data b.data

/-- `analysis_result.Violation`. -/
structure Violation where
  normal_form : NormalForm
  description : String
  affected_columns : List String
  explanation : String
  resolution : String
  deriving DecidableEq

/-- `analysis_result.NormalizationStep`. -/
structure NormalizationStep where
  from_nf : NormalForm
  to_nf : NormalForm
  violations_found : List Violation
  tables_created : List Table
  explanation : String
  sql_changes : List String := []
  deriving DecidableEq

/-- `analysis_result.AnalysisResult`. -/
structure AnalysisResult where
  original_table : Table
  current_normal_form : NormalForm
  target_normal_form : NormalForm := .FIFTH_NF
  normalization_steps : List NormalizationStep := []
  final_tables : List Table := []
  analysis_id : Option String := none
  deriving DecidableEq

/-- Engine state: the deep-copied snapshot and the mutable working set. -/
structure Engine where
  original_table : Table
  current_tables : List Table
  deriving DecidableEq

/-- The default table used for the (unreachable) head of an empty working
set — `current_tables` always holds at least one table. -/
def emptyTable : Table := { name := "", columns := [] }

/-- `name.rstrip` of trailing digits and underscores, as used for
repeating-group base names. -/
def isStripChar (c : Char) : Bool := c.isDigit || c = '_'

/-- The base name of a column: the name with its trailing run of digits and
underscores removed. -/
def stripBase (s : String) : String :=
  ⟨(s.data.reverse.dropWhile isStripChar).reverse⟩

/-- The repeating-group scan of `_is_1nf`: walk the column names keeping the
set of seen base names and report a collision as soon as a base repeats
(the Python dict maps base to name, but only key membership is tested). -/
def hasBaseCollision (seen : List String) : List String → Bool
  | [] => false
  | n :: rest =>
    let b := stripBase n
    if b ∈ seen then true else hasBaseCollision (b :: seen) rest

/-- The per-value non-atomicity test of `_is_1nf`: a collection value, or a
comma-separated string with more than two parts. -/
def valueNonAtomic (v : Val) : Bool :=
  match v with
  | .coll _ => true
  | .str s => s.contains ',' && decide ((s.splitOn ",").length > 2)
  | _ => false

/-- `NormalizationEngine._is_1nf` on a table: no repeating-group base-name
collision, and no non-atomic value in the first 10 sample rows. -/
def is1nf (t : Table) : Bool :=
  if hasBaseCollision [] t.getColumnNames then false
  else if (t.data.rows.take 10).any (fun r => r.any valueNonAtomic) then false
  else true

/-- `NormalizationEngine._is_2nf`: 1NF, and either a primary key of size at
most one or no partial dependency (determinant a strict subset of the
primary key, dependent outside every candidate key). -/
def is2nf (t : Table) : Bool :=
  if ¬ is1nf t then false
  else if t.primary_key.card ≤ 1 then true
  else if t.functional_dependencies.any (fun fd =>
      decide (fd.determinant ⊆ t.primary_key) && decide (fd.determinant ≠ t.primary_key) &&
      !(t.candidate_keys.any (fun k => decide (fd.dependent ⊆ k)))) then false
  else true

/-- `NormalizationEngine._is_3nf`: 2NF, and no transitive dependency (a
determinant that is no superkey with a dependent sharing no column with any
candidate key). -/
def is3nf (t : Table) : Bool :=
  if ¬ is2nf t then false
  else if t.functional_dependencies.any (fun fd =>
      !(t.candidate_keys.any (fun k => decide (k ⊆ fd.determinant))) &&
      !(t.candidate_keys.any (fun k => decide (∃ d ∈ fd.dependent, d ∈ k)))) then false
  else true

/-- `NormalizationEngine._is_bcnf`: 3NF, and every determinant a superkey. -/
def isBcnf (t : Table) : Bool :=
  if ¬ is3nf t then false
  else if t.functional_dependencies.any (fun fd =>
      !(t.candidate_keys.any (fun k => decide (k ⊆ fd.determinant)))) then false
  else true

/-- `NormalizationEngine._is_4nf`: BCNF, and every recorded MVD trivial
(dependent inside the determinant, or union spanning all columns). -/
def is4nf (t : Table) : Bool :=
  if ¬ isBcnf t then false
  else if t.multi_valued_dependencies.any (fun mvd =>
      decide (¬ mvd.dependent ⊆ mvd.determinant) &&
      decide (¬ (mvd.determinant ∪ mvd.dependent = t.getColumnNames.toFinset))) then false
  else true

/-- `NormalizationEngine._is_5nf`: 4NF, and no MVDs recorded at all. -/
def is5nf (t : Table) : Bool :=
  if ¬ is4nf t then false
  else decide (t.multi_valued_dependencies.length = 0)

/-- `NormalizationEngine._determine_current_nf`: the classifier chain from
the bottom level upwards. -/
def classify (t : Table) : NormalForm :=
  if ¬ is1nf t then .UNNORMALIZED
  else if ¬ is2nf t then .FIRST_NF
  else if ¬ is3nf t then .SECOND_NF
  else if ¬ isBcnf t then .THIRD_NF
  else if ¬ is4nf t then .BCNF
  else if ¬ is5nf t then .FOURTH_NF
  else .FIFTH_NF

/-- The level predicate named by each normal form (`UNNORMALIZED` has no
predicate and counts as vacuously true). -/
def nfPred : NormalForm → Table → Bool
  | .UNNORMALIZED => fun _ => true
  | .FIRST_NF => is1nf
  | .SECOND_NF => is2nf
  | .THIRD_NF => is3nf
  | .BCNF => isBcnf
  | .FOURTH_NF => is4nf
  | .FIFTH_NF => is5nf

/-- The intended ordinal rank of the normal-form ladder. -/
def nfRank : NormalForm → Nat
  | .UNNORMALIZED => 0
  | .FIRST_NF => 1
  | .SECOND_NF => 2
  | .THIRD_NF => 3
  | .BCNF => 4
  | .FOURTH_NF => 5
  | .FIFTH_NF => 6

/-- `NormalizationEngine._find_repeating_groups` accumulator: append the
name under its base, keeping dict insertion order. -/
def addToGroups (m : List (String × List String)) (b n : String) :
    List (String × List String) :=
  if m.any (fun e => decide (e.1 = b)) then
    m.map (fun e => if e.1 = b then (e.1, e.2 ++ [n]) else e)
  else m ++ [(b, [n])]

/-- One name processed by `_find_repeating_groups`: only names that lose a
trailing run of digits or underscores are recorded under their base. -/
def groupStep (m : List (String × List String)) (n : String) :
    List (String × List String) :=
  let b := stripBase n
  if b ≠ n then addToGroups m b n else m

/-- The base-name dict of `_find_repeating_groups`. -/
def repeatingGroupsMap (colNames : List String) : List (String × List String) :=
  colNames.foldl groupStep []

/-- `NormalizationEngine._find_repeating_groups`: the bases that collected
more than one stripped column name, as column-name sets. -/
def findRepeatingGroups (colNames : List String) : List (Finset String) :=
  ((repeatingGroupsMap colNames).filter (fun e => decide (e.2.length > 1))).map
    (fun e => e.2.toFinset)

/-- `NormalizationEngine._find_non_atomic_columns`: columns holding a
collection value or a comma-separated string with more than two parts in
the first 20 sample rows, in first-hit order without duplicates. -/
def findNonAtomicColumns (t : Table) : List String :=
  (t.data.rows.take 20).foldl (fun acc r =>
    t.data.cols.foldl (fun acc2 c =>
      match t.data.cell r c with
      | .coll _ => if c ∈ acc2 then acc2 else acc2 ++ [c]
      | .str s =>
        if s.contains ',' then
          if (s.splitOn ",").length > 2 ∧ c ∉ acc2 then acc2 ++ [c] else acc2
        else acc2
      | _ => acc2) acc) []

/-- `NormalizationEngine._create_table_from_fd`: a new table holding the
determinant and dependent columns of the FD (set iteration modelled as
sorted order), with the determinant as primary key; all other fields keep
their dataclass defaults — in particular `foreign_keys` stays empty. -/
def createTableFromFD (source : Table) (fd : FunctionalDependency)
    (newName : String) : Table :=
  let newColNames := (fd.determinant ∪ fd.dependent).sort (· ≤ ·)
  let newColumns := newColNames.filterMap (fun n => source.getColumn n)
  { name := newName, columns := newColumns, primary_key := fd.determinant }

/-- Sorted rendering of a column-name set (Python set printing is
unordered; only used inside presentation strings). -/
def fsetToString (s : Finset String) : String :=
  String.intercalate ", " (s.sort (· ≤ ·))

/-- Abbreviated rendering of an FD for violation descriptions (the Python
`__str__` adds braces and a 2-decimal confidence). -/
def fdToString (fd : FunctionalDependency) : String :=
  fsetToString fd.determinant ++ " -> " ++ fsetToString fd.dependent

/-- Abbreviated rendering of an MVD for violation descriptions. -/
def mvdToString (mvd : MultiValuedDependency) : String :=
  fsetToString mvd.determinant ++ " ->> " ++ fsetToString mvd.dependent

/-- The varying content of a step's explanation block (the long fixed text
is abbreviated; only the violation count varies). -/
def explanationText (nfName : String) (count : Nat) : String :=
  nfName ++ " requirements checked. Violations found: " ++ toString count

/-- `list(some set)[0]` as used for new-table names, modelled as the least
element of the set. -/
def firstOfSet (s : Finset String) : String := (s.sort (· ≤ ·)).headD ""

/-- `NormalizationEngine._normalize_to_1nf`: one violation per repeating
group and per non-atomic column; the working set is left unchanged. -/
def normalizeTo1nf (e : Engine) : NormalizationStep :=
  let t := e.current_tables.headD emptyTable
  let groups := findRepeatingGroups t.getColumnNames
  let vio1 := groups.map (fun g =>
    { normal_form := NormalForm.FIRST_NF
      description := "Repeating group detected: " ++ fsetToString g
      affected_columns := g.sort (· ≤ ·)
      explanation := "Columns with similar names and trailing numbers indicate repeating groups, violating 1NF."
      resolution := "Create a separate table for the repeating group with a foreign key reference." })
  let nonAtomic := findNonAtomicColumns t
  let vio2 := nonAtomic.map (fun c =>
    { normal_form := NormalForm.FIRST_NF
      description := "Non-atomic values in column: " ++ c
      affected_columns := [c]
      explanation := "Column contains comma-separated or complex values, violating atomicity requirement of 1NF."
      resolution := "Split the column into multiple rows or create a separate table." })
  { from_nf := .UNNORMALIZED
    to_nf := .FIRST_NF
    violations_found := vio1 ++ vio2
    tables_created := e.current_tables
    explanation := explanationText "1NF" (vio1 ++ vio2).length }

/-- The partial dependencies `_normalize_to_2nf` reacts to. -/
def partialFds (t : Table) : List FunctionalDependency :=
  t.functional_dependencies.filter (fun fd =>
    decide (fd.determinant ⊆ t.primary_key) && decide (fd.determinant ≠ t.primary_key) &&
    !(t.candidate_keys.any (fun k => decide (fd.dependent ⊆ k))))

/-- `NormalizationEngine._normalize_to_2nf`: for a composite primary key,
one violation and one extracted table per partial dependency; the working
set is replaced when new tables appeared. -/
def normalizeTo2nf (e : Engine) : NormalizationStep × Engine :=
  let t := e.current_tables.headD emptyTable
  let relevant := if t.primary_key.card > 1 then partialFds t else []
  let violations := relevant.map (fun fd =>
    { normal_form := NormalForm.SECOND_NF
      description := "Partial dependency: " ++ fdToString fd
      affected_columns := (fd.determinant ∪ fd.dependent).sort (· ≤ ·)
      explanation := "Non-key attributes depend on only part of the primary key."
      resolution := "Extract the partially dependent attributes into a separate table." })
  let newTables := t :: relevant.map (fun fd =>
    createTableFromFD t fd (t.name ++ "_" ++ firstOfSet fd.dependent))
  let e2 := if newTables ≠ [t] then { e with current_tables := newTables } else e
  ({ from_nf := .FIRST_NF
     to_nf := .SECOND_NF
     violations_found := violations
     tables_created := newTables
     explanation := explanationText "2NF" violations.length }, e2)

/-- The transitive dependencies `_normalize_to_3nf` reacts to. -/
def transitiveFds (t : Table) : List FunctionalDependency :=
  t.functional_dependencies.filter (fun fd =>
    !(t.candidate_keys.any (fun k => decide (k ⊆ fd.determinant))) &&
    !(t.candidate_keys.any (fun k => decide (∃ d ∈ fd.dependent, d ∈ k))))

/-- `NormalizationEngine._normalize_to_3nf`: over every working table, one
violation and one extracted table per transitive dependency; the working
set is replaced when new tables appeared. -/
def normalizeTo3nf (e : Engine) : NormalizationStep × Engine :=
  let violations := e.current_tables.flatMap (fun t =>
    (transitiveFds t).map (fun fd =>
      { normal_form := NormalForm.THIRD_NF
        description := "Transitive dependency: " ++ fdToString fd
        affected_columns := (fd.determinant ∪ fd.dependent).sort (· ≤ ·)
        explanation := "A non-key attribute depends on another non-key attribute."
        resolution := "Extract transitively dependent attributes into a separate table." }))
  let newTables := e.current_tables ++ e.current_tables.flatMap (fun t =>
    (transitiveFds t).map (fun fd =>
      createTableFromFD t fd (t.name ++ "_" ++ firstOfSet fd.determinant ++ "_details")))
  let e2 := if newTables ≠ e.current_tables then { e with current_tables := newTables } else e
  ({ from_nf := .SECOND_NF
     to_nf := .THIRD_NF
     violations_found := violations
     tables_created := newTables
     explanation := explanationText "3NF" violations.length }, e2)

/-- `NormalizationEngine._normalize_to_bcnf`: the source never fills its
violation list; the step reports the unchanged working set. -/
def normalizeToBcnf (e : Engine) : NormalizationStep :=
  { from_nf := .THIRD_NF
    to_nf := .BCNF
    violations_found := []
    tables_created := e.current_tables
    explanation := explanationText "BCNF" 0 }

/-- `NormalizationEngine._normalize_to_4nf`: one violation per recorded MVD
across the working tables; the working set is left unchanged. -/
def normalizeTo4nf (e : Engine) : NormalizationStep :=
  let violations := e.current_tables.flatMap (fun t =>
    t.multi_valued_dependencies.map (fun mvd =>
      { normal_form := NormalForm.FOURTH_NF
        description := "Multi-valued dependency: " ++ mvdToString mvd
        affected_columns := (mvd.determinant ∪ mvd.dependent).sort (· ≤ ·)
        explanation := "A multi-valued dependency was detected."
        resolution := "Decompose into separate tables to eliminate multi-valued dependencies." }))
  { from_nf := .BCNF
    to_nf := .FOURTH_NF
    violations_found := violations
    tables_created := e.current_tables
    explanation := explanationText "4NF" violations.length }

/-- `NormalizationEngine._normalize_to_5nf`: no violations are produced. -/
def normalizeTo5nf (e : Engine) : NormalizationStep :=
  { from_nf := .FOURTH_NF
    to_nf := .FIFTH_NF
    violations_found := []
    tables_created := e.current_tables
    explanation := explanationText "5NF" 0 }

/-- `NormalizationEngine.__init__`: the snapshot is deep-copied before any
mutation, then — when the table carries no FDs — the detector populates the
working table's dependencies and, if keys were found and no primary key was
set, its candidate keys and primary key. -/
def initEngine (mvdScore : DFrame → List String → String → String → ℚ)
    (thr : ℚ) (table : Table) : Engine :=
  let original := table
  let working :=
    if table.functional_dependencies = [] then
      let r := detectAllOrig mvdScore thr table
      let t2 := { table with
        functional_dependencies := r.1
        multi_valued_dependencies := r.2.1 }
      if r.2.2 ≠ [] ∧ t2.primary_key = ∅ then
        { t2 with candidate_keys := r.2.2, primary_key := r.2.2.headD ∅ }
      else t2
    else table
  { original_table := original, current_tables := [working] }

/-- `NormalizationEngine.analyze`: classify the head working table, then
run at most one transition per level, each guarded by a Python `<` on the
enum value strings (every `_normalize_to_*` call returns a truthy step, so
each taken branch appends exactly one step). -/
def analyze (e : Engine) : AnalysisResult × Engine :=
  let nf0 := classify (e.current_tables.headD emptyTable)
  let s1e1c1 :=
    if pyStrLt (nfValue nf0) (nfValue NormalForm.FIRST_NF) then
      (([normalizeTo1nf e] : List NormalizationStep), e, NormalForm.FIRST_NF)
    else ([], e, nf0)
  let s2e2c2 :=
    if pyStrLt (nfValue s1e1c1.2.2) (nfValue NormalForm.SECOND_NF) then
      let r := normalizeTo2nf s1e1c1.2.1
      (s1e1c1.1 ++ [r.1], r.2, NormalForm.SECOND_NF)
    else s1e1c1
  let s3e3c3 :=
    if pyStrLt (nfValue s2e2c2.2.2) (nfValue NormalForm.THIRD_NF) then
      let r := normalizeTo3nf s2e2c2.2.1
      (s2e2c2.1 ++ [r.1], r.2, NormalForm.THIRD_NF)
    else s2e2c2
  let s4e4c4 :=
    if pyStrLt (nfValue s3e3c3.2.2) (nfValue NormalForm.BCNF) then
      (s3e3c3.1 ++ [normalizeToBcnf s3e3c3.2.1], s3e3c3.2.1, NormalForm.BCNF)
    else s3e3c3
  let s5e5c5 :=
    if pyStrLt (nfValue s4e4c4.2.2) (nfValue NormalForm.FOURTH_NF) then
      (s4e4c4.1 ++ [normalizeTo4nf s4e4c4.2.1], s4e4c4.2.1, NormalForm.FOURTH_NF)
    else s4e4c4
  let s6e6c6 :=
    if pyStrLt (nfValue s5e5c5.2.2) (nfValue NormalForm.FIFTH_NF) then
      (s5e5c5.1 ++ [normalizeTo5nf s5e5c5.2.1], s5e5c5.2.1, NormalForm.FIFTH_NF)
    else s5e5c5
  ({ original_table := e.original_table
     current_normal_form := nf0
     normalization_steps := s6e6c6.1
     final_tables := s6e6c6.2.1.current_tables }, s6e6c6.2.1)

/-! ### Concrete inputs used by the claim theorems -/

/-- A trivial MVD-score stand-in for concrete evaluations. -/
def zeroScore : DFrame → List String → String → String → ℚ := fun _ _ _ _ => 0

/-- A table with the repeating-group columns `phone1`, `phone2`; it is
classified Unnormalized. -/
def tPhones : Table :=
  { name := "orders"
    columns := [{ name := "phone1", data_type := .VARCHAR },
                { name := "phone2", data_type := .VARCHAR }] }

/-- A one-column fully normalized table (its own key, no spare FDs). -/
def tOneCol : Table :=
  { name := "t"
    columns := [{ name := "a", data_type := .VARCHAR }]
    primary_key := {"a"}
    candidate_keys := [{"a"}]
    functional_dependencies := [⟨{"a"}, {"a"}, 1⟩] }

/-- A three-row frame whose column `c` is row-unique and null-free and
determines the constant column `d`. -/
def dfW : DFrame :=
  ⟨["c", "d"],
   [[Val.int 1, Val.str "x"], [Val.int 2, Val.str "x"], [Val.int 3, Val.str "x"]]⟩

/-- A four-row frame with the mutually determining non-unique columns `a`
and `b`. -/
def dfW2 : DFrame :=
  ⟨["a", "b"],
   [[Val.str "p", Val.str "x"], [Val.str "p", Val.str "x"],
    [Val.str "q", Val.str "y"], [Val.str "q", Val.str "y"]]⟩

/-- A two-row frame whose column `c` holds the integer 1 and the string
"1": the values are distinct (so `c` is row-unique with no nulls) but they
stringify identically, so `c` does not determine `d`. -/
def dfMixed : DFrame :=
  ⟨["c", "d"], [[Val.int 1, Val.str "x"], [Val.str "1", Val.str "y"]]⟩

/-- A five-row frame where the composite `a`, `b` is row-unique (covering
100 percent of the rows) and determines `c`. -/
def dfC7 : DFrame :=
  ⟨["a", "b", "c"],
   [[Val.int 1, Val.str "p", Val.str "q"],
    [Val.int 2, Val.str "p", Val.str "q"],
    [Val.int 3, Val.str "p", Val.str "q"],
    [Val.int 4, Val.str "p", Val.str "q"],
    [Val.int 5, Val.str "p", Val.str "q"]]⟩

/-! ### Claim theorems -/

/-- C9: the `original_table` stored in the `AnalysisResult` is the
deep-copied snapshot taken at engine construction — before dependency
population of the working table — and none of the mutations `analyze`
performs on the working set (decomposition, replacement of the working
table list) changes any field of that snapshot: the result's
`original_table` is exactly the input table. -/
theorem analyze_preserves_original_snapshot
    (mvdScore : DFrame → List String → String → String → ℚ) (thr : ℚ) (t : Table) :
    (analyze (initEngine mvdScore thr t)).1.original_table = t := rfl

/-- C1 (code bug): `analyze` compares the `NormalForm` enum value strings
with Python `<`; lexicographically "Unnormalized" exceeds every short level
name, so a table classified Unnormalized triggers no transition at all —
`analyze` appends zero `NormalizationStep`s instead of one per unmet level
up to 5NF. -/
theorem analyze_unnormalized_yields_no_steps :
    classify tPhones = NormalForm.UNNORMALIZED ∧
    pyStrLt (nfValue NormalForm.UNNORMALIZED) (nfValue NormalForm.FIRST_NF) = false ∧
    (analyze (initEngine zeroScore (85 / 100) tPhones)).1.normalization_steps = [] := by
  decide

/-- C3 (code bug): `_create_table_from_fd` builds every decomposition table
with the dataclass defaults, so the tables materialized by the 2NF and 3NF
transitions carry an empty `foreign_keys` mapping — no
column-to-(table, column) reference back to their source table exists. -/
theorem createTableFromFD_foreign_keys_empty
    (source : Table) (fd : FunctionalDependency) (newName : String) :
    (createTableFromFD source fd newName).foreign_keys = [] := rfl

/-- When the repeating-group scan of `_is_1nf` reports no collision, every
scanned base is fresh and all stripped bases are distinct. -/
theorem hasBaseCollision_false (seen : List String) (ns : List String)
    (h : hasBaseCollision seen ns = false) :
    (∀ n ∈ ns, stripBase n ∉ seen) ∧ (ns.map stripBase).Nodup := by
  induction ns generalizing seen with
  | nil => simp
  | cons n rest ih =>
    rw [hasBaseCollision] at h
    by_cases hb : stripBase n ∈ seen
    · simp [hb] at h
    · rw [if_neg hb] at h
      obtain ⟨h1, h2⟩ := ih _ h
      refine ⟨?_, ?_⟩
      · intro m hm
        rcases List.mem_cons.1 hm with hm | hm
        · subst hm; exact hb
        · intro hc
          exact h1 m hm (List.mem_cons_of_mem _ hc)
      · rw [List.map_cons, List.nodup_cons]
        refine ⟨?_, h2⟩
        intro hc
        obtain ⟨m, hm, hme⟩ := List.mem_map.1 hc
        exact h1 m hm (by rw [hme]; exact List.mem_cons_self _ _)

/-- If all stripped base names are distinct, every entry of the
repeating-group dict collects at most one column name. -/
theorem groups_short (ns : List String) :
    ∀ (m : List (String × List String)),
      (ns.map stripBase).Nodup →
      (∀ e ∈ m, e.2.length ≤ 1) →
      (∀ e ∈ m, ∀ n ∈ ns, stripBase n ≠ e.1) →
      ∀ e ∈ ns.foldl groupStep m, e.2.length ≤ 1 := by
  induction ns with
  | nil => intro m _ hm _ e he; exact hm e he
  | cons n rest ih =>
    intro m hnd hm hfresh
    rw [List.map_cons, List.nodup_cons] at hnd
    rw [List.foldl_cons]
    have hstep : ∀ e ∈ groupStep m n, e.2.length ≤ 1 := by
      intro e he
      unfold groupStep at he
      by_cases hb : stripBase n ≠ n
      · rw [if_pos hb] at he
        unfold addToGroups at he
        have hkey : (m.any (fun e => decide (e.1 = stripBase n))) = false := by
          rw [List.any_eq_false]
          intro e' he'
          simpa using (hfresh e' he' n (List.mem_cons_self _ _)).symm
        rw [if_neg (by simp [hkey])] at he
        rcases List.mem_append.1 he with he | he
        · exact hm e he
        · rcases List.mem_singleton.1 he with rfl; simp
      · rw [if_neg hb] at he; exact hm e he
    have hstepfresh : ∀ e ∈ groupStep m n, ∀ n' ∈ rest, stripBase n' ≠ e.1 := by
      intro e he n' hn'
      unfold groupStep at he
      by_cases hb : stripBase n ≠ n
      · rw [if_pos hb] at he
        unfold addToGroups at he
        have hkey : (m.any (fun e => decide (e.1 = stripBase n))) = false := by
          rw [List.any_eq_false]
          intro e' he'
          simpa using (hfresh e' he' n (List.mem_cons_self _ _)).symm
        rw [if_neg (by simp [hkey])] at he
        rcases List.mem_append.1 he with he | he
        · exact hfresh e he n' (List.mem_cons_of_mem _ hn')
        · rcases List.mem_singleton.1 he with rfl
          intro hc
          exact hnd.1 (List.mem_map.2 ⟨n', hn', hc⟩)
      · rw [if_neg hb] at he
        exact hfresh e he n' (List.mem_cons_of_mem _ hn')
    exact ih (groupStep m n) hnd.2 hstep hstepfresh

/-- If all stripped base names are distinct, the repeating-group finder
returns no group. -/
theorem nodup_implies_no_groups (ns : List String)
    (hnd : (ns.map stripBase).Nodup) : findRepeatingGroups ns = [] := by
  unfold findRepeatingGroups repeatingGroupsMap
  have hshort := groups_short ns [] hnd (by simp) (by simp)
  have hfil : ((ns.foldl groupStep []).filter (fun e => decide (e.2.length > 1))) = [] := by
    rw [List.filter_eq_nil_iff]
    intro e he
    simpa using Nat.not_lt.2 (hshort e he)
  rw [hfil, List.map_nil]

/-- C10 counterexample: on the column names `phone`, `phone1` the 1NF
classifier's scan finds a base-name collision while the repeating-group
finder used by the 1NF step returns no group — the two checks disagree. -/
theorem collision_without_groups :
    hasBaseCollision [] ["phone", "phone1"] = true ∧
    findRepeatingGroups ["phone", "phone1"] = [] := by decide

/-- C10 amended: the implication holds in one direction only — whenever the
repeating-group finder returns a non-empty group list, the 1NF classifier's
base-name scan finds a collision on the same column names (the converse
fails when a column name coincides with another's stripped base). -/
theorem groups_imply_collision (ns : List String)
    (h : findRepeatingGroups ns ≠ []) : hasBaseCollision [] ns = true := by
  by_contra hc
  have hfalse : hasBaseCollision [] ns = false := by
    cases hEq : hasBaseCollision [] ns
    · rfl
    · exact absurd hEq hc
  exact h (nodup_implies_no_groups ns (hasBaseCollision_false [] ns hfalse).2)

/-- Witness for C10's amended theorem at the columns `phone1`, `phone2`. -/
theorem groups_imply_collision_witness :
    findRepeatingGroups ["phone1", "phone2"] ≠ [] ∧
    hasBaseCollision [] ["phone1", "phone2"] = true :=
  ⟨by decide, groups_imply_collision ["phone1", "phone2"] (by decide)⟩

/-- Every level predicate strictly below the classified level holds: the
classifier chain only reaches a level after all lower predicates passed. -/
theorem classify_spec (t : Table) :
    ∀ L, nfRank L < nfRank (classify t) → nfPred L t = true := by
  intro L h
  by_cases h1 : is1nf t = true <;>
    by_cases h2 : is2nf t = true <;>
      by_cases h3 : is3nf t = true <;>
        by_cases h4 : isBcnf t = true <;>
          by_cases h5 : is4nf t = true <;>
            by_cases h6 : is5nf t = true <;>
              cases L <;>
                simp_all [classify, nfPred, nfRank]

/-- C4: classification is monotonic — when the classifier returns level L,
the predicate of every level strictly below L also evaluates to true on the
table. -/
theorem classify_monotonic (t : Table) (L L' : NormalForm)
    (h : classify t = L) (hlt : nfRank L' < nfRank L) : nfPred L' t = true := by
  subst h
  exact classify_spec t L' hlt

/-- Witness for C4 at a fully normalized one-column table classified 5NF:
its 1NF predicate holds. -/
theorem classify_monotonic_witness :
    classify tOneCol = NormalForm.FIFTH_NF ∧ nfPred NormalForm.FIRST_NF tOneCol = true :=
  ⟨by decide,
   classify_monotonic tOneCol NormalForm.FIFTH_NF NormalForm.FIRST_NF (by decide) (by decide)⟩

/-- C8: a sample that is empty or below the minimum row count short-circuits
dependency detection — the base detector (minimum 2 rows) returns empty FD,
MVD and candidate-key sets, and the improved detector (minimum 3 rows)
returns empty FD and key sets; both detectors are total functions here, so
no exception can be raised on this path. -/
theorem small_sample_returns_empty
    (mvdScore : DFrame → List String → String → String → ℚ) (thr : ℚ)
    (t : Table) (df : DFrame) (cns : List String)
    (h1 : t.data.nRows < 2) (h2 : df.nRows < 3) :
    detectAllOrig mvdScore thr t = ([], [], []) ∧ detectAllImp df cns thr = ([], []) := by
  constructor
  · simp only [detectAllOrig, if_pos (Or.inr h1)]
  · simp only [detectAllImp, if_pos (Or.inr h2)]

/-- Witness for C8 at an empty table and an empty frame. -/
theorem small_sample_returns_empty_witness :
    emptyTable.data.nRows < 2 ∧
    detectAllOrig zeroScore (85 / 100) emptyTable = ([], [], []) ∧
    detectAllImp ⟨[], []⟩ [] (9 / 10) = ([], []) :=
  ⟨by decide,
   (small_sample_returns_empty zeroScore (85 / 100) emptyTable ⟨[], []⟩ []
      (by decide) (by decide)).1,
   (small_sample_returns_empty zeroScore (9 / 10) emptyTable ⟨[], []⟩ []
      (by decide) (by decide)).2⟩

/-- The minimality pass only ever keeps keys of its input list. -/
theorem minimalityPass_subset (ks : List (Finset String)) :
    ∀ k ∈ minimalityPass ks, k ∈ ks := by
  intro k hk
  unfold minimalityPass at hk
  by_cases h : (ks.filter (fun k => decide (¬ ks.any (fun o => o ≠ k ∧ o ⊆ k)))) = []
  · rwa [if_pos h] at hk
  · rw [if_neg h] at hk
    exact (List.mem_filter.1 hk).1

/-- A nonempty key list always contains a key that strictly contains no
other listed key (pick one of minimum cardinality). -/
theorem exists_minimal_key (ks : List (Finset String)) (h : ks ≠ []) :
    ∃ k ∈ ks, ∀ o ∈ ks, ¬ o ⊂ k := by
  have hne : ks.toFinset.Nonempty := by
    cases ks with
    | nil => exact absurd rfl h
    | cons a l => exact ⟨a, by simp⟩
  obtain ⟨k, hk, hmin⟩ := ks.toFinset.exists_min_image Finset.card hne
  refine ⟨k, List.mem_toFinset.1 hk, ?_⟩
  intro o ho hss
  exact absurd (hmin o (List.mem_toFinset.2 ho)) (Nat.not_le.2 (Finset.card_lt_card hss))

/-- The strict-minimal filter of the minimality pass never empties a
nonempty candidate list. -/
theorem minimal_filter_ne_nil (ks : List (Finset String)) (h : ks ≠ []) :
    (ks.filter (fun k => decide (¬ ks.any (fun o => o ≠ k ∧ o ⊆ k)))) ≠ [] := by
  obtain ⟨k, hk, hmin⟩ := exists_minimal_key ks h
  intro hnil
  have : k ∈ ks.filter (fun k => decide (¬ ks.any (fun o => o ≠ k ∧ o ⊆ k))) := by
    rw [List.mem_filter]
    refine ⟨hk, decide_eq_true ?_⟩
    intro hany
    rw [List.any_eq_true] at hany
    obtain ⟨o, ho, hcond⟩ := hany
    obtain ⟨hne, hsub⟩ := of_decide_eq_true hcond
    exact absurd (HasSubset.Subset.ssubset_of_ne hsub hne) (hmin o ho)
  rw [hnil] at this
  exact absurd this (List.not_mem_nil k)

/-- The minimality pass never returns an empty list when candidates
existed. -/
theorem minimalityPass_ne_nil (ks : List (Finset String)) (h : ks ≠ []) :
    minimalityPass ks ≠ [] := by
  unfold minimalityPass
  by_cases hf : (ks.filter (fun k => decide (¬ ks.any (fun o => o ≠ k ∧ o ⊆ k)))) = []
  · rwa [if_pos hf]
  · rwa [if_neg hf]

/-- No key returned by the minimality pass is a strict superset of another
returned key. -/
theorem minimalityPass_no_ssubset (ks : List (Finset String)) :
    ∀ k1 ∈ minimalityPass ks, ∀ k2 ∈ minimalityPass ks, ¬ k2 ⊂ k1 := by
  intro k1 h1 k2 h2 hss
  by_cases hks : ks = []
  · subst hks
    simp [minimalityPass] at h1
  · have hmem2 : k2 ∈ ks := minimalityPass_subset ks k2 h2
    have hres : minimalityPass ks =
        ks.filter (fun k => decide (¬ ks.any (fun o => o ≠ k ∧ o ⊆ k))) := by
      unfold minimalityPass
      rw [if_neg (minimal_filter_ne_nil ks hks)]
    rw [hres, List.mem_filter] at h1
    have hno := of_decide_eq_true h1.2
    apply hno
    rw [List.any_eq_true]
    exact ⟨k2, hmem2, decide_eq_true ⟨hss.ne, hss.subset⟩⟩

/-- C5: for both detectors, the candidate keys returned by key detection
contain no strict superset of another returned key, and whenever candidates
existed before the minimality pass the returned list is non-empty. -/
theorem candidate_keys_minimal_and_nonempty
    (df df2 : DFrame) (fds fds2 : List FunctionalDependency) (thr thr2 : ℚ) :
    (∀ k1 ∈ detectKeysOrig df fds thr, ∀ k2 ∈ detectKeysOrig df fds thr, ¬ k2 ⊂ k1) ∧
    (candidatesOrig df thr ≠ [] → detectKeysOrig df fds thr ≠ []) ∧
    (∀ k1 ∈ detectKeysImp df2 fds2 thr2, ∀ k2 ∈ detectKeysImp df2 fds2 thr2, ¬ k2 ⊂ k1) ∧
    (candidatesImp df2 fds2 thr2 ≠ [] → detectKeysImp df2 fds2 thr2 ≠ []) :=
  ⟨minimalityPass_no_ssubset _,
   fun h => minimalityPass_ne_nil _ h,
   minimalityPass_no_ssubset _,
   fun h => minimalityPass_ne_nil _ h⟩

/-- Witness for C5 at a frame with a row-unique column: both detectors have
candidates before the minimality pass and return nonempty key lists. -/
theorem candidate_keys_minimal_and_nonempty_witness :
    candidatesOrig dfW (85 / 100) ≠ [] ∧ detectKeysOrig dfW [] (85 / 100) ≠ [] ∧
    candidatesImp dfW [] (9 / 10) ≠ [] ∧ detectKeysImp dfW [] (9 / 10) ≠ [] :=
  ⟨by decide,
   (candidate_keys_minimal_and_nonempty dfW dfW [] [] (85 / 100) (9 / 10)).2.1 (by decide),
   by decide,
   (candidate_keys_minimal_and_nonempty dfW dfW [] [] (85 / 100) (9 / 10)).2.2.2 (by decide)⟩

/-! ### The FD deduplication dict -/

/-- The dict keys of an association list are distinct. -/
abbrev keysNodup (m : List ((Finset String × Finset String) × FunctionalDependency)) : Prop :=
  (m.map (fun e => e.1)).Nodup

/-- Every dict entry stores its own FD's (determinant, dependent) key. -/
abbrev pairConsistent (m : List ((Finset String × Finset String) × FunctionalDependency)) : Prop :=
  ∀ e ∈ m, fdPair e.2 = e.1

/-- Entries after an insertion are old entries or hold the inserted FD. -/
theorem dictInsert_mem (m : List ((Finset String × Finset String) × FunctionalDependency))
    (fd : FunctionalDependency) :
    ∀ e ∈ dictInsert m fd, e ∈ m ∨ e.2 = fd := by
  intro e he
  unfold dictInsert at he
  split at he
  · obtain ⟨e', he', heq⟩ := List.mem_map.1 he
    by_cases hc : e'.1 = fdPair fd ∧ e'.2.confidence < fd.confidence
    · rw [if_pos hc] at heq; right; rw [← heq]
    · rw [if_neg hc] at heq; left; rwa [← heq]
  · rcases List.mem_append.1 he with he | he
    · exact Or.inl he
    · right; rw [List.mem_singleton.1 he]

/-- Insertion keeps the dict keys distinct. -/
theorem dictInsert_keysNodup (m : List ((Finset String × Finset String) × FunctionalDependency))
    (fd : FunctionalDependency) (h : keysNodup m) : keysNodup (dictInsert m fd) := by
  unfold dictInsert
  split
  · unfold keysNodup
    rw [List.map_map]
    have : ∀ e ∈ m, ((fun e => e.1) ∘ fun e =>
        if e.1 = fdPair fd ∧ e.2.confidence < fd.confidence then (e.1, fd) else e) e =
        (fun e : (Finset String × Finset String) × FunctionalDependency => e.1) e := by
      intro e _
      by_cases hc : e.1 = fdPair fd ∧ e.2.confidence < fd.confidence
      · simp [hc]
      · simp [hc]
    rw [List.map_congr_left this]
    exact h
  · unfold keysNodup
    rw [List.map_append, List.map_cons, List.map_nil]
    rename_i hany
    have hnotin : fdPair fd ∉ m.map (fun e => e.1) := by
      intro hc
      obtain ⟨e, he, hee⟩ := List.mem_map.1 hc
      apply hany
      rw [List.any_eq_true]
      exact ⟨e, he, decide_eq_true hee⟩
    refine List.Nodup.append h (List.nodup_singleton _) ?_
    intro a ha hb
    rw [List.mem_singleton] at hb
    rw [hb] at ha
    exact hnotin ha

/-- Insertion keeps entries storing their own FD's pair key. -/
theorem dictInsert_pairConsistent
    (m : List ((Finset String × Finset String) × FunctionalDependency))
    (fd : FunctionalDependency) (h : pairConsistent m) : pairConsistent (dictInsert m fd) := by
  intro e he
  unfold dictInsert at he
  split at he
  · obtain ⟨e', he', heq⟩ := List.mem_map.1 he
    by_cases hc : e'.1 = fdPair fd ∧ e'.2.confidence < fd.confidence
    · rw [if_pos hc] at heq
      rw [← heq]
      exact hc.1.symm ▸ rfl
    · rw [if_neg hc] at heq
      rw [← heq]
      exact h e' he'
  · rcases List.mem_append.1 he with he | he
    · exact h e he
    · rw [List.mem_singleton.1 he]

/-- An existing entry survives an insertion with the same key and a
confidence that never decreases. -/
theorem dictInsert_grow (m : List ((Finset String × Finset String) × FunctionalDependency))
    (fd : FunctionalDependency) (e : (Finset String × Finset String) × FunctionalDependency)
    (he : e ∈ m) :
    ∃ e' ∈ dictInsert m fd, e'.1 = e.1 ∧ e.2.confidence ≤ e'.2.confidence := by
  unfold dictInsert
  split
  · refine ⟨if e.1 = fdPair fd ∧ e.2.confidence < fd.confidence then (e.1, fd) else e,
      List.mem_map.2 ⟨e, he, rfl⟩, ?_⟩
    by_cases hc : e.1 = fdPair fd ∧ e.2.confidence < fd.confidence
    · rw [if_pos hc]
      exact ⟨rfl, le_of_lt hc.2⟩
    · rw [if_neg hc]
      exact ⟨rfl, le_refl _⟩
  · exact ⟨e, List.mem_append_left _ he, rfl, le_refl _⟩

/-- After inserting an FD the dict holds an entry under its pair key whose
confidence is at least the inserted one. -/
theorem dictInsert_covers (m : List ((Finset String × Finset String) × FunctionalDependency))
    (fd : FunctionalDependency) :
    ∃ e' ∈ dictInsert m fd, e'.1 = fdPair fd ∧ fd.confidence ≤ e'.2.confidence := by
  unfold dictInsert
  split
  · rename_i hany
    have hany2 := hany
    rw [List.any_eq_true] at hany2
    obtain ⟨e, he, hee⟩ := hany2
    have hkey : e.1 = fdPair fd := of_decide_eq_true hee
    refine ⟨if e.1 = fdPair fd ∧ e.2.confidence < fd.confidence then (e.1, fd) else e,
      List.mem_map.2 ⟨e, he, rfl⟩, ?_⟩
    by_cases hc : e.1 = fdPair fd ∧ e.2.confidence < fd.confidence
    · rw [if_pos hc]
      exact ⟨hkey, le_refl _⟩
    · rw [if_neg hc]
      refine ⟨hkey, ?_⟩
      by_contra hlt
      exact hc ⟨hkey, lt_of_not_le hlt⟩
  · exact ⟨(fdPair fd, fd), List.mem_append_right _ (List.mem_singleton_self _), rfl, le_refl _⟩

/-- Folding insertions: each existing entry's key survives with
non-decreasing confidence. -/
theorem foldl_dictInsert_grow (l : List FunctionalDependency) :
    ∀ (m : List ((Finset String × Finset String) × FunctionalDependency)) e, e ∈ m →
      ∃ e' ∈ l.foldl dictInsert m, e'.1 = e.1 ∧ e.2.confidence ≤ e'.2.confidence := by
  induction l with
  | nil => intro m e he; exact ⟨e, he, rfl, le_refl _⟩
  | cons g rest ih =>
    intro m e he
    rw [List.foldl_cons]
    obtain ⟨e1, he1, hk1, hc1⟩ := dictInsert_grow m g e he
    obtain ⟨e2, he2, hk2, hc2⟩ := ih (dictInsert m g) e1 he1
    exact ⟨e2, he2, hk2.trans hk1, hc1.trans hc2⟩

/-- Folding insertions: every inserted FD ends covered by an entry under
its pair key with at least its confidence. -/
theorem foldl_dictInsert_covers (l : List FunctionalDependency) :
    ∀ (m : List ((Finset String × Finset String) × FunctionalDependency)) g, g ∈ l →
      ∃ e' ∈ l.foldl dictInsert m, e'.1 = fdPair g ∧ g.confidence ≤ e'.2.confidence := by
  induction l with
  | nil => intro m g hg; exact absurd hg (List.not_mem_nil g)
  | cons g0 rest ih =>
    intro m g hg
    rw [List.foldl_cons]
    rcases List.mem_cons.1 hg with rfl | hg
    · obtain ⟨e1, he1, hk1, hc1⟩ := dictInsert_covers m g
      obtain ⟨e2, he2, hk2, hc2⟩ := foldl_dictInsert_grow rest (dictInsert m g) e1 he1
      exact ⟨e2, he2, hk2.trans hk1, hc1.trans hc2⟩
    · exact ih (dictInsert m g0) g hg

/-- Folding insertions only creates entries from the initial dict or the
inserted FDs. -/
theorem foldl_dictInsert_mem (l : List FunctionalDependency) :
    ∀ (m : List ((Finset String × Finset String) × FunctionalDependency)) e,
      e ∈ l.foldl dictInsert m → e ∈ m ∨ e.2 ∈ l := by
  induction l with
  | nil => intro m e he; exact Or.inl he
  | cons g rest ih =>
    intro m e he
    rw [List.foldl_cons] at he
    rcases ih (dictInsert m g) e he with hm | hl
    · rcases dictInsert_mem m g e hm with hm | hg
      · exact Or.inl hm
      · exact Or.inr (by rw [hg]; exact List.mem_cons_self _ _)
    · exact Or.inr (List.mem_cons_of_mem _ hl)

/-- Folding insertions keeps the dict keys distinct. -/
theorem foldl_dictInsert_keysNodup (l : List FunctionalDependency) :
    ∀ m, keysNodup m → keysNodup (l.foldl dictInsert m) := by
  induction l with
  | nil => intro m h; exact h
  | cons g rest ih =>
    intro m h
    rw [List.foldl_cons]
    exact ih _ (dictInsert_keysNodup m g h)

/-- Folding insertions keeps entries storing their own FD's pair key. -/
theorem foldl_dictInsert_pairConsistent (l : List FunctionalDependency) :
    ∀ m, pairConsistent m → pairConsistent (l.foldl dictInsert m) := by
  induction l with
  | nil => intro m h; exact h
  | cons g rest ih =>
    intro m h
    rw [List.foldl_cons]
    exact ih _ (dictInsert_pairConsistent m g h)

/-- Every FD surviving deduplication is a non-trivial member of the input. -/
theorem dedupByPair_mem (l : List FunctionalDependency) :
    ∀ x ∈ dedupByPair l,
      x ∈ l.filter (fun fd => decide (¬ fd.dependent ⊆ fd.determinant)) := by
  intro x hx
  unfold dedupByPair at hx
  obtain ⟨e, he, hee⟩ := List.mem_map.1 hx
  rcases foldl_dictInsert_mem _ [] e he with hnil | hmem
  · exact absurd hnil (List.not_mem_nil e)
  · rwa [← hee]

/-- Deduplication keeps, for each pair, a confidence at least that of any
same-pair non-trivial input FD. -/
theorem dedupByPair_max (l : List FunctionalDependency) :
    ∀ x ∈ dedupByPair l,
      ∀ g ∈ l.filter (fun fd => decide (¬ fd.dependent ⊆ fd.determinant)),
        fdPair g = fdPair x → g.confidence ≤ x.confidence := by
  intro x hx g hg hpair
  unfold dedupByPair at hx
  obtain ⟨e, he, hee⟩ := List.mem_map.1 hx
  have hcons := foldl_dictInsert_pairConsistent _ [] (by intro e h; simp at h) e he
  obtain ⟨e', he', hk', hc'⟩ := foldl_dictInsert_covers _ [] g hg
  have hknd := foldl_dictInsert_keysNodup
    (l.filter (fun fd => decide (¬ fd.dependent ⊆ fd.determinant))) [] (by simp [keysNodup])
  have hkeq : e'.1 = e.1 := by
    rw [hk', hpair, ← hee, hcons]
  have : e' = e := List.inj_on_of_nodup_map hknd he' he hkeq
  rw [← hee, ← this]
  exact hc'

/-- Deduplication leaves at most one FD per (determinant, dependent) pair. -/
theorem dedupByPair_unique (l : List FunctionalDependency) :
    ∀ x y, x ∈ dedupByPair l → y ∈ dedupByPair l → fdPair x = fdPair y → x = y := by
  intro x y hx hy hpair
  unfold dedupByPair at hx hy
  obtain ⟨e, he, hee⟩ := List.mem_map.1 hx
  obtain ⟨e', he', hee'⟩ := List.mem_map.1 hy
  have hcons := foldl_dictInsert_pairConsistent
    (l.filter (fun fd => decide (¬ fd.dependent ⊆ fd.determinant))) [] (by intro e h; simp at h)
  have hknd := foldl_dictInsert_keysNodup
    (l.filter (fun fd => decide (¬ fd.dependent ⊆ fd.determinant))) [] (by simp [keysNodup])
  have hkeq : e.1 = e'.1 := by
    rw [← hcons e he, ← hcons e' he', hee, hee', hpair]
  have heq : e = e' := List.inj_on_of_nodup_map hknd he he' hkeq
  rw [← hee, ← hee', heq]

/-- Stable descending insertion permutes the inserted element in. -/
theorem insertByConfDesc_perm (fd : FunctionalDependency) (l : List FunctionalDependency) :
    List.Perm (insertByConfDesc fd l) (fd :: l) := by
  induction l with
  | nil => exact List.Perm.refl [fd]
  | cons g gs ih =>
    unfold insertByConfDesc
    by_cases h : g.confidence ≤ fd.confidence
    · rw [if_pos h]
    · rw [if_neg h]
      exact (List.Perm.cons g ih).trans (List.Perm.swap fd g gs)

/-- The stable descending sort is a permutation of its input. -/
theorem sortByConfDesc_perm (l : List FunctionalDependency) :
    List.Perm (sortByConfDesc l) l := by
  induction l with
  | nil => exact List.Perm.refl []
  | cons g gs ih =>
    unfold sortByConfDesc
    rw [List.foldr_cons]
    exact (insertByConfDesc_perm g _).trans (List.Perm.cons g ih)

/-- The improved detector's FD list holds the same FDs as the
deduplication of its raw list (the final step only sorts). -/
theorem detectFDsImp_mem (df : DFrame) (thr : ℚ) (x : FunctionalDependency) :
    x ∈ detectFDsImp df thr ↔ x ∈ dedupByPair (rawFDsImp df thr) := by
  unfold detectFDsImp removeRedundantFdsImp
  exact (sortByConfDesc_perm _).mem_iff

/-- C6: for both detectors, every returned FD is non-trivial (its dependent
set is not contained in its determinant set), and per (determinant,
dependent) pair only a highest-confidence instance of the raw detected FDs
is retained — in particular the returned list holds at most one FD per
pair. -/
theorem detected_fds_nontrivial_and_deduped (dfA dfB : DFrame) (thrA thrB : ℚ) :
    (∀ fd ∈ detectFDsOrig dfA thrA, ¬ fd.dependent ⊆ fd.determinant) ∧
    (∀ fd ∈ detectFDsOrig dfA thrA, ∀ g ∈ rawFDsOrig dfA thrA,
      fdPair g = fdPair fd → g.confidence ≤ fd.confidence) ∧
    (∀ fd g, fd ∈ detectFDsOrig dfA thrA → g ∈ detectFDsOrig dfA thrA →
      fdPair fd = fdPair g → fd = g) ∧
    (∀ fd ∈ detectFDsImp dfB thrB, ¬ fd.dependent ⊆ fd.determinant) ∧
    (∀ fd ∈ detectFDsImp dfB thrB, ∀ g ∈ rawFDsImp dfB thrB,
      fdPair g = fdPair fd → g.confidence ≤ fd.confidence) ∧
    (∀ fd g, fd ∈ detectFDsImp dfB thrB → g ∈ detectFDsImp dfB thrB →
      fdPair fd = fdPair g → fd = g) := by
  have nontrivial_of_dedup : ∀ (l : List FunctionalDependency) x, x ∈ dedupByPair l →
      ¬ x.dependent ⊆ x.determinant := by
    intro l x hx
    exact of_decide_eq_true (List.mem_filter.1 (dedupByPair_mem l x hx)).2
  have max_of_dedup : ∀ (l : List FunctionalDependency) x, x ∈ dedupByPair l →
      ∀ g ∈ l, fdPair g = fdPair x → g.confidence ≤ x.confidence := by
    intro l x hx g hg hpair
    have hxg : ¬ g.dependent ⊆ g.determinant := by
      have hx2 := nontrivial_of_dedup l x hx
      have h1 : g.determinant = x.determinant := congrArg Prod.fst hpair
      have h2 : g.dependent = x.dependent := congrArg Prod.snd hpair
      rw [h1, h2]
      exact hx2
    exact dedupByPair_max l x hx g (List.mem_filter.2 ⟨hg, decide_eq_true hxg⟩) hpair
  refine ⟨?_, ?_, ?_, ?_, ?_, ?_⟩
  · intro fd hfd
    exact nontrivial_of_dedup _ fd hfd
  · intro fd hfd g hg hpair
    exact max_of_dedup _ fd hfd g hg hpair
  · intro fd g hfd hg hpair
    exact dedupByPair_unique _ fd g hfd hg hpair
  · intro fd hfd
    exact nontrivial_of_dedup _ fd ((detectFDsImp_mem dfB thrB fd).1 hfd)
  · intro fd hfd g hg hpair
    exact max_of_dedup _ fd ((detectFDsImp_mem dfB thrB fd).1 hfd) g hg hpair
  · intro fd g hfd hg hpair
    exact dedupByPair_unique _ fd g ((detectFDsImp_mem dfB thrB fd).1 hfd)
      ((detectFDsImp_mem dfB thrB g).1 hg) hpair

/-- Witness for C6 at concrete frames where both detectors return FDs. -/
theorem detected_fds_nontrivial_and_deduped_witness :
    (¬ (⟨{"c"}, {"d"}, 1⟩ : FunctionalDependency).dependent ⊆
        (⟨{"c"}, {"d"}, 1⟩ : FunctionalDependency).determinant) ∧
    ((⟨{"c"}, {"d"}, 1⟩ : FunctionalDependency).confidence ≤ (1 : ℚ)) ∧
    (¬ (⟨{"a"}, {"b"}, 1⟩ : FunctionalDependency).dependent ⊆
        (⟨{"a"}, {"b"}, 1⟩ : FunctionalDependency).determinant) ∧
    ((⟨{"a"}, {"b"}, 1⟩ : FunctionalDependency).confidence ≤ (1 : ℚ)) :=
  ⟨(detected_fds_nontrivial_and_deduped dfW dfW2 (85 / 100) (9 / 10)).1
      ⟨{"c"}, {"d"}, 1⟩ (by decide),
   (detected_fds_nontrivial_and_deduped dfW dfW2 (85 / 100) (9 / 10)).2.1
      ⟨{"c"}, {"d"}, 1⟩ (by decide) ⟨{"c"}, {"d"}, 1⟩ (by decide) (by decide),
   (detected_fds_nontrivial_and_deduped dfW dfW2 (85 / 100) (9 / 10)).2.2.2.1
      ⟨{"a"}, {"b"}, 1⟩ (by decide),
   (detected_fds_nontrivial_and_deduped dfW dfW2 (85 / 100) (9 / 10)).2.2.2.2.1
      ⟨{"a"}, {"b"}, 1⟩ (by decide) ⟨{"a"}, {"b"}, 1⟩ (by decide) (by decide)⟩

/-- A sublist of a duplicate-free list is that list filtered to the
sublist's members. -/
theorem sublist_eq_filter (cols : List String) (hnd : cols.Nodup) :
    ∀ q, q.Sublist cols → q = cols.filter (fun a => decide (a ∈ q)) := by
  induction cols with
  | nil =>
    intro q hq
    rw [List.sublist_nil.1 hq]
    rfl
  | cons x rest ih =>
    intro q hq
    rw [List.nodup_cons] at hnd
    cases hq with
    | cons _ h =>
      have hx : x ∉ q := fun hxq => hnd.1 (h.subset hxq)
      rw [List.filter_cons, if_neg (by simpa using hx)]
      exact ih hnd.2 q h
    | cons₂ _ h =>
      rename_i q1
      rw [List.filter_cons, if_pos (by simp)]
      have hcong : rest.filter (fun a => decide (a ∈ x :: q1)) =
          rest.filter (fun a => decide (a ∈ q1)) := by
        apply List.filter_congr
        intro a ha
        have hax : a ≠ x := fun haeq => hnd.1 (haeq ▸ ha)
        simp [List.mem_cons, hax]
      rw [hcong, ← ih hnd.2 q1 h]

/-- Two sublists of a duplicate-free list with the same element set are
equal. -/
theorem sublists_toFinset_inj (cols p q : List String) (hnd : cols.Nodup)
    (hp : p.Sublist cols) (hq : q.Sublist cols) (h : p.toFinset = q.toFinset) :
    p = q := by
  rw [sublist_eq_filter cols hnd p hp, sublist_eq_filter cols hnd q hq]
  apply List.filter_congr
  intro a _
  have : a ∈ p ↔ a ∈ q := by
    constructor
    · intro hap; exact List.mem_toFinset.1 (h ▸ List.mem_toFinset.2 hap)
    · intro haq; exact List.mem_toFinset.1 (h.symm ▸ List.mem_toFinset.2 haq)
  simp [this]

/-- Every raw improved-detector FD has as determinant either a single
non-row-unique column or a two-column combo whose combined key covers at
most 80 percent of the rows. -/
theorem rawFDsImp_det_shape (df : DFrame) (thr : ℚ) :
    ∀ fd ∈ rawFDsImp df thr,
      (∃ d, d ∈ df.cols ∧ fd.determinant = {d} ∧ nuniqueCol df d ≠ df.nRows) ∨
      (∃ q, q ∈ df.cols.sublistsLen 2 ∧ fd.determinant = q.toFinset ∧
        ¬ (df.nRows * 4 < nuniqueStr (aggJoin df q) * 5)) := by
  intro fd hfd
  unfold rawFDsImp at hfd
  rcases List.mem_append.1 hfd with hs | hc
  · left
    obtain ⟨det, hdet, hmem⟩ := List.mem_flatMap.1 hs
    by_cases hu : nuniqueCol df det = df.nRows
    · rw [if_pos hu] at hmem
      exact absurd hmem (List.not_mem_nil fd)
    · rw [if_neg hu] at hmem
      obtain ⟨dep, _, hsome⟩ := List.mem_filterMap.1 hmem
      by_cases hde : dep = det
      · rw [if_pos hde] at hsome; exact absurd hsome (by simp)
      · rw [if_neg hde] at hsome
        by_cases hthr : thr ≤ fdConfidenceImp df [det] [dep]
        · rw [if_pos hthr] at hsome
          refine ⟨det, hdet, ?_, hu⟩
          rw [← Option.some.inj hsome]
        · rw [if_neg hthr] at hsome; exact absurd hsome (by simp)
  · right
    split at hc
    case isFalse => exact absurd hc (List.not_mem_nil fd)
    case isTrue =>
      obtain ⟨detCols, hdc, hmem⟩ := List.mem_flatMap.1 hc
      by_cases hskip : df.nRows * 4 < nuniqueStr (aggJoin df detCols) * 5
      · rw [if_pos hskip] at hmem
        exact absurd hmem (List.not_mem_nil fd)
      · rw [if_neg hskip] at hmem
        obtain ⟨dep, _, hsome⟩ := List.mem_filterMap.1 hmem
        by_cases hde : dep ∈ detCols
        · rw [if_pos hde] at hsome; exact absurd hsome (by simp)
        · rw [if_neg hde] at hsome
          by_cases hthr : thr ≤ fdConfidenceImp df detCols [dep]
          · rw [if_pos hthr] at hsome
            refine ⟨detCols, hdc, ?_, hskip⟩
            rw [← Option.some.inj hsome]
          · rw [if_neg hthr] at hsome; exact absurd hsome (by simp)

/-- C7 counterexample: the base detector performs no coverage pruning — on
a five-row frame whose composite `a`, `b` covers 100 percent of the rows
(more than 80 percent), its output still contains an FD with that composite
determinant. -/
theorem composite_coverage_fd_retained_orig :
    dfC7.nRows * 4 < nuniqueStr (aggJoin dfC7 ["a", "b"]) * 5 ∧
    (detectFDsOrig dfC7 (85 / 100)).any
      (fun fd => decide (fd.determinant = ({"a", "b"} : Finset String))) = true := by
  decide

/-- C7 amended: the coverage pruning holds for the improved detector — a
two-column combo whose combined key covers more than 80 percent of the rows
never appears as the determinant of any FD in its output (the base detector
has no such pruning). -/
theorem composite_determinants_pruned_improved
    (df : DFrame) (thr : ℚ) (p : List String)
    (hnd : df.cols.Nodup) (hp : p ∈ df.cols.sublistsLen 2)
    (hcov : df.nRows * 4 < nuniqueStr (aggJoin df p) * 5) :
    ∀ fd ∈ detectFDsImp df thr, fd.determinant ≠ p.toFinset := by
  intro fd hfd heq
  have hraw : fd ∈ rawFDsImp df thr :=
    List.mem_of_mem_filter (dedupByPair_mem _ fd ((detectFDsImp_mem df thr fd).1 hfd))
  have hpmem := List.mem_sublistsLen.1 hp
  have hpnd : p.Nodup := hpmem.1.nodup hnd
  rcases rawFDsImp_det_shape df thr fd hraw with ⟨d, _, hdet, _⟩ | ⟨q, hq, hdet, hskip⟩
  · have hcard : p.toFinset.card = 2 := by
      rw [List.toFinset_card_of_nodup hpnd, hpmem.2]
    have hsing : p.toFinset = {d} := by rw [← heq, hdet]
    rw [hsing] at hcard
    simp at hcard
  · have hqmem := List.mem_sublistsLen.1 hq
    have : q = p := sublists_toFinset_inj df.cols q p hnd hqmem.1 hpmem.1
      (by rw [← hdet, heq])
    rw [this] at hskip
    exact hskip hcov

/-- Witness for C7's amended theorem at a frame whose two columns jointly
cover all rows. -/
theorem composite_determinants_pruned_improved_witness :
    (["c", "d"] ∈ dfW.cols.sublistsLen 2) ∧
    (dfW.nRows * 4 < nuniqueStr (aggJoin dfW ["c", "d"]) * 5) ∧
    ∀ fd ∈ detectFDsImp dfW (9 / 10),
      fd.determinant ≠ (["c", "d"] : List String).toFinset :=
  ⟨by decide, by decide,
   composite_determinants_pruned_improved dfW (9 / 10) ["c", "d"]
     (by decide) (by decide) (by decide)⟩

/-- Membership in the original composite key search comes from the filter
of one of the searched sizes. -/
theorem compositeKeySearchOrig_mem (df : DFrame) (thr : ℚ) :
    ∀ sizes, ∀ k ∈ compositeKeySearchOrig df thr sizes,
      ∃ s ∈ sizes, k ∈ (df.cols.sublistsLen s).filterMap (fun combo =>
        if nuniqueStr (aggJoin df combo) = df.nRows ∧ determinesAllOrig df combo thr
        then some combo.toFinset else none) := by
  intro sizes
  induction sizes with
  | nil => intro k hk; exact absurd hk (List.not_mem_nil k)
  | cons s rest ih =>
    intro k hk
    rw [compositeKeySearchOrig] at hk
    split at hk
    · obtain ⟨s', hs', hk'⟩ := ih k hk
      exact ⟨s', List.mem_cons_of_mem _ hs', hk'⟩
    · exact ⟨s, List.mem_cons_self _ _, hk⟩

/-- Keys produced by the original composite search have the cardinality of
one of the searched sizes. -/
theorem compositeKeySearchOrig_card (df : DFrame) (thr : ℚ) (hnd : df.cols.Nodup) :
    ∀ sizes, ∀ k ∈ compositeKeySearchOrig df thr sizes, ∃ s ∈ sizes, k.card = s := by
  intro sizes k hk
  obtain ⟨s, hs, hmem⟩ := compositeKeySearchOrig_mem df thr sizes k hk
  obtain ⟨combo, hcombo, hsome⟩ := List.mem_filterMap.1 hmem
  have hcm := List.mem_sublistsLen.1 hcombo
  by_cases hcond : nuniqueStr (aggJoin df combo) = df.nRows ∧ determinesAllOrig df combo thr
  · rw [if_pos hcond] at hsome
    refine ⟨s, hs, ?_⟩
    rw [← Option.some.inj hsome, List.toFinset_card_of_nodup (hcm.1.nodup hnd), hcm.2]
  · rw [if_neg hcond] at hsome
    exact absurd hsome (by simp)

/-- Membership in the improved composite key search comes from the filter
of one of the searched sizes. -/
theorem compositeKeySearchImp_mem (df : DFrame) (thr : ℚ) :
    ∀ sizes, ∀ k ∈ compositeKeySearchImp df thr sizes,
      ∃ s ∈ sizes, k ∈ (df.cols.sublistsLen s).filterMap (fun combo =>
        if combo.any (fun c => hasNullCol df c) then none
        else if nuniqueStr (aggJoin df combo) = df.nRows then
          if (df.cols.filter (fun o => decide (o ∉ combo))).all
              (fun o => decide (thr ≤ fdConfidenceImp df combo [o]))
          then some combo.toFinset else none
        else none) := by
  intro sizes
  induction sizes with
  | nil => intro k hk; exact absurd hk (List.not_mem_nil k)
  | cons s rest ih =>
    intro k hk
    rw [compositeKeySearchImp] at hk
    split at hk
    · obtain ⟨s', hs', hk'⟩ := ih k hk
      exact ⟨s', List.mem_cons_of_mem _ hs', hk'⟩
    · exact ⟨s, List.mem_cons_self _ _, hk⟩

/-- Keys produced by the improved composite key search have the
cardinality of one of the searched sizes. -/
theorem compositeKeySearchImp_card (df : DFrame) (thr : ℚ) (hnd : df.cols.Nodup) :
    ∀ sizes, ∀ k ∈ compositeKeySearchImp df thr sizes, ∃ s ∈ sizes, k.card = s := by
  intro sizes k hk
  obtain ⟨s, hs, hmem⟩ := compositeKeySearchImp_mem df thr sizes k hk
  obtain ⟨combo, hcombo, hsome⟩ := List.mem_filterMap.1 hmem
  have hcm := List.mem_sublistsLen.1 hcombo
  by_cases h1 : combo.any (fun c => hasNullCol df c) = true
  · rw [if_pos h1] at hsome; exact absurd hsome (by simp)
  · rw [if_neg h1] at hsome
    by_cases h2 : nuniqueStr (aggJoin df combo) = df.nRows
    · rw [if_pos h2] at hsome
      by_cases h3 : (df.cols.filter (fun o => decide (o ∉ combo))).all
          (fun o => decide (thr ≤ fdConfidenceImp df combo [o])) = true
      · rw [if_pos h3] at hsome
        refine ⟨s, hs, ?_⟩
        rw [← Option.some.inj hsome, List.toFinset_card_of_nodup (hcm.1.nodup hnd), hcm.2]
      · rw [if_neg h3] at hsome; exact absurd hsome (by simp)
    · rw [if_neg h2] at hsome; exact absurd hsome (by simp)

/-- Membership in the closure key search comes from the filter of one of
the searched sizes. -/
theorem closureKeySearchImp_mem (df : DFrame) (fds : List FunctionalDependency) :
    ∀ sizes, ∀ k ∈ closureKeySearchImp df fds sizes,
      ∃ s ∈ sizes, k ∈ (df.cols.sublistsLen s).filterMap (fun combo =>
        if closureIter fds 10 combo.toFinset = df.cols.toFinset then
          match combo with
          | [c] => if nuniqueCol df c = df.nRows then some combo.toFinset else none
          | _ => if nuniqueStr (aggJoin df combo) = df.nRows then some combo.toFinset else none
        else none) := by
  intro sizes
  induction sizes with
  | nil => intro k hk; exact absurd hk (List.not_mem_nil k)
  | cons s rest ih =>
    intro k hk
    rw [closureKeySearchImp] at hk
    split at hk
    · obtain ⟨s', hs', hk'⟩ := ih k hk
      exact ⟨s', List.mem_cons_of_mem _ hs', hk'⟩
    · exact ⟨s, List.mem_cons_self _ _, hk⟩

/-- A duplicate-free list whose element set is a singleton is that
singleton list. -/
theorem nodup_toFinset_singleton (l : List String) (c : String) (hnd : l.Nodup)
    (h : l.toFinset = {c}) : l = [c] := by
  cases l with
  | nil => exact absurd h.symm (by simp)
  | cons x tail =>
    have hx : x = c := by
      have hxm : x ∈ ({c} : Finset String) :=
        h ▸ List.mem_toFinset.2 (List.mem_cons_self x tail)
      exact Finset.mem_singleton.1 hxm
    subst hx
    have htail : tail = [] := by
      by_contra hne
      obtain ⟨y, hy⟩ := List.exists_mem_of_ne_nil tail hne
      have hyc : y = x :=
        Finset.mem_singleton.1 (h ▸ List.mem_toFinset.2 (List.mem_cons_of_mem _ hy))
      rw [List.nodup_cons] at hnd
      exact hnd.1 (hyc ▸ hy)
    rw [htail]

/-- A singleton accepted by the closure key search satisfies the closure
condition and is row-unique. -/
theorem closureKeySearchImp_singleton (df : DFrame) (fds : List FunctionalDependency)
    (hnd : df.cols.Nodup) (sizes : List Nat) (c : String)
    (hk : ({c} : Finset String) ∈ closureKeySearchImp df fds sizes) :
    closureIter fds 10 {c} = df.cols.toFinset ∧ nuniqueCol df c = df.nRows := by
  obtain ⟨s, _, hmem⟩ := closureKeySearchImp_mem df fds sizes _ hk
  obtain ⟨combo, hcombo, hsome⟩ := List.mem_filterMap.1 hmem
  have hcm := List.mem_sublistsLen.1 hcombo
  have hcnd : combo.Nodup := hcm.1.nodup hnd
  by_cases hcl : closureIter fds 10 combo.toFinset = df.cols.toFinset
  · rw [if_pos hcl] at hsome
    cases combo with
    | nil =>
      simp at hsome
      exact absurd hsome.2 (Ne.symm (Finset.singleton_ne_empty c))
    | cons x tail =>
      cases tail with
      | nil =>
        by_cases hu : nuniqueCol df x = df.nRows
        · rw [show (match [x] with
              | [c] => if nuniqueCol df c = df.nRows then some ([c] : List String).toFinset else none
              | _ => if nuniqueStr (aggJoin df [x]) = df.nRows then some ([x] : List String).toFinset else none) =
              if nuniqueCol df x = df.nRows then some ([x] : List String).toFinset else none from rfl,
            if_pos hu] at hsome
          have hxc : x = c := by
            have := Option.some.inj hsome
            simpa using Finset.singleton_inj.1 (by simpa using this)
          subst hxc
          refine ⟨?_, hu⟩
          rw [← hcl]
          exact congrArg (closureIter fds 10) (by simp)
        · rw [show (match [x] with
              | [c] => if nuniqueCol df c = df.nRows then some ([c] : List String).toFinset else none
              | _ => if nuniqueStr (aggJoin df [x]) = df.nRows then some ([x] : List String).toFinset else none) =
              if nuniqueCol df x = df.nRows then some ([x] : List String).toFinset else none from rfl,
            if_neg hu] at hsome
          exact absurd hsome (by simp)
      | cons y rest =>
        have hfin : (x :: y :: rest).toFinset = {c} := by
          by_cases h2 : nuniqueStr (aggJoin df (x :: y :: rest)) = df.nRows
          · rw [show (match x :: y :: rest with
                | [c] => if nuniqueCol df c = df.nRows then some (x :: y :: rest).toFinset else none
                | _ => if nuniqueStr (aggJoin df (x :: y :: rest)) = df.nRows then
                    some (x :: y :: rest).toFinset else none) =
                if nuniqueStr (aggJoin df (x :: y :: rest)) = df.nRows then
                  some (x :: y :: rest).toFinset else none from rfl, if_pos h2] at hsome
            exact Option.some.inj hsome
          · rw [show (match x :: y :: rest with
                | [c] => if nuniqueCol df c = df.nRows then some (x :: y :: rest).toFinset else none
                | _ => if nuniqueStr (aggJoin df (x :: y :: rest)) = df.nRows then
                    some (x :: y :: rest).toFinset else none) =
                if nuniqueStr (aggJoin df (x :: y :: rest)) = df.nRows then
                  some (x :: y :: rest).toFinset else none from rfl, if_neg h2] at hsome
            exact absurd hsome (by simp)
        have hlist : x :: y :: rest = [c] := nodup_toFinset_singleton _ c hcnd hfin
        exact absurd hlist (by simp)
  · rw [if_neg hcl] at hsome
    exact absurd hsome (by simp)

/-- A fold of closure steps over FDs whose determinants are never contained
in the set leaves the set unchanged. -/
theorem closureStep_fixed (fds : List FunctionalDependency) (S : Finset String)
    (h : ∀ fd ∈ fds, ¬ fd.determinant ⊆ S) : closureStep fds S = S := by
  unfold closureStep
  induction fds with
  | nil => rfl
  | cons fd rest ih =>
    rw [List.foldl_cons, if_neg (by
      intro hc
      exact h fd (List.mem_cons_self _ _) hc.1)]
    exact ih (fun g hg => h g (List.mem_cons_of_mem _ hg))

/-- The bounded closure loop fixes any set no determinant is contained
in. -/
theorem closureIter_fixed (fds : List FunctionalDependency) (S : Finset String)
    (h : ∀ fd ∈ fds, ¬ fd.determinant ⊆ S) : ∀ n, closureIter fds n S = S := by
  intro n
  cases n with
  | zero => rfl
  | succ m =>
    rw [closureIter, closureStep_fixed fds S h]
    simp

/-- A singleton accepted by Method 1 of the improved key detection is a
null-free, row-unique column of the frame that determines every other
column at the threshold. -/
theorem singleKeysImp_singleton (df : DFrame) (thr : ℚ) (c : String)
    (h : ({c} : Finset String) ∈ singleKeysImp df thr) :
    c ∈ df.cols ∧ hasNullCol df c = false ∧ nuniqueCol df c = df.nRows ∧
    ∀ b ∈ df.cols, b ≠ c → thr ≤ fdConfidenceImp df [c] [b] := by
  unfold singleKeysImp at h
  obtain ⟨c', hc', hsome⟩ := List.mem_filterMap.1 h
  by_cases hn : hasNullCol df c' = true
  · rw [if_pos hn] at hsome; exact absurd hsome (by simp)
  · rw [if_neg hn] at hsome
    by_cases hu : nuniqueCol df c' = df.nRows
    · rw [if_pos hu] at hsome
      by_cases ha : (df.cols.filter (fun o => decide (o ≠ c'))).all
          (fun o => decide (thr ≤ fdConfidenceImp df [c'] [o])) = true
      · rw [if_pos ha] at hsome
        have hcc : c' = c := Finset.singleton_inj.1 (Option.some.inj hsome)
        subst hcc
        refine ⟨hc', Bool.not_eq_true _ ▸ (by simpa using hn), hu, ?_⟩
        intro b hb hbc
        exact of_decide_eq_true
          (List.all_eq_true.1 ha b (List.mem_filter.2 ⟨hb, decide_eq_true hbc⟩))
      · rw [if_neg ha] at hsome; exact absurd hsome (by simp)
    · rw [if_neg hu] at hsome; exact absurd hsome (by simp)

/-- The base detector returns a singleton candidate key exactly for the
row-unique, null-free columns of the frame — no FD-confidence condition is
involved. -/
theorem detectKeysOrig_singleton (df : DFrame) (fds : List FunctionalDependency)
    (thr : ℚ) (hnd : df.cols.Nodup) (c : String) :
    (({c} : Finset String) ∈ detectKeysOrig df fds thr) ↔
      (c ∈ df.cols ∧ nuniqueCol df c = df.nRows ∧ hasNullCol df c = false) := by
  constructor
  · intro h
    have hc : ({c} : Finset String) ∈ candidatesOrig df thr :=
      minimalityPass_subset _ _ h
    unfold candidatesOrig at hc
    split at hc
    · obtain ⟨s, hs, hcard⟩ := compositeKeySearchOrig_card df thr hnd _ _ hc
      obtain ⟨i, _, hie⟩ := List.mem_range'.1 hs
      rw [Finset.card_singleton] at hcard
      omega
    · obtain ⟨c', hc', hceq⟩ := List.mem_map.1 hc
      have hcc : c' = c := Finset.singleton_inj.1 hceq
      subst hcc
      obtain ⟨hmem, hcond⟩ := List.mem_filter.1 hc'
      obtain ⟨h1, h2⟩ := of_decide_eq_true hcond
      exact ⟨hmem, h1, h2⟩
  · rintro ⟨hmem, hun, hnn⟩
    have hsingle : ({c} : Finset String) ∈ singlesOrig df :=
      List.mem_map.2 ⟨c, List.mem_filter.2 ⟨hmem, decide_eq_true ⟨hun, hnn⟩⟩, rfl⟩
    have hne : singlesOrig df ≠ [] := List.ne_nil_of_mem hsingle
    have hcand : ({c} : Finset String) ∈ candidatesOrig df thr := by
      unfold candidatesOrig
      rw [if_neg hne]
      exact hsingle
    have hsub : ∀ o ∈ candidatesOrig df thr, o ⊆ {c} → o ≠ {c} → False := by
      intro o ho hsubc hone
      have ho2 : o ∈ singlesOrig df := by
        unfold candidatesOrig at ho
        rwa [if_neg hne] at ho
      obtain ⟨c'', _, hceq⟩ := List.mem_map.1 ho2
      rw [← hceq] at hsubc hone
      have hce : c'' = c :=
        Finset.mem_singleton.1 (hsubc (Finset.mem_singleton_self c''))
      rw [hce] at hone
      exact hone rfl
    have hminmem : ({c} : Finset String) ∈ (candidatesOrig df thr).filter
        (fun k => decide (¬ (candidatesOrig df thr).any (fun o => o ≠ k ∧ o ⊆ k))) := by
      rw [List.mem_filter]
      refine ⟨hcand, decide_eq_true ?_⟩
      intro hany
      rw [List.any_eq_true] at hany
      obtain ⟨o, ho, hcond⟩ := hany
      obtain ⟨hone, hosub⟩ := of_decide_eq_true hcond
      exact hsub o ho hosub hone
    unfold detectKeysOrig minimalityPass
    rw [if_neg (List.ne_nil_of_mem hminmem)]
    exact hminmem

/-- A singleton candidate key returned by the improved detector (run on
its own detected FDs, as `detect_all_dependencies` does) is always produced
by Method 1, hence null-free, row-unique, and determining every other
column at the threshold. -/
theorem detectKeysImp_singleton_conditions (df : DFrame) (thr : ℚ) (c : String)
    (hnd : df.cols.Nodup)
    (hmem : ({c} : Finset String) ∈ detectKeysImp df (detectFDsImp df thr) thr) :
    hasNullCol df c = false ∧ nuniqueCol df c = df.nRows ∧
    ∀ b ∈ df.cols, b ≠ c → thr ≤ fdConfidenceImp df [c] [b] := by
  have hc : ({c} : Finset String) ∈ candidatesImp df (detectFDsImp df thr) thr :=
    minimalityPass_subset _ _ hmem
  unfold candidatesImp at hc
  split at hc
  · obtain ⟨_, h2, h3, h4⟩ := singleKeysImp_singleton df thr c hc
    exact ⟨h2, h3, h4⟩
  · split at hc
    · obtain ⟨s, hs, hcard⟩ := compositeKeySearchImp_card df thr hnd _ _ hc
      obtain ⟨i, _, hie⟩ := List.mem_range'.1 hs
      rw [Finset.card_singleton] at hcard
      omega
    · split at hc
      · rename_i hm1 hm2 hfds
        obtain ⟨hcl, hu⟩ := closureKeySearchImp_singleton df _ hnd _ c hc
        have hdets : ∀ fd ∈ detectFDsImp df thr, ¬ fd.determinant ⊆ {c} := by
          intro fd hfd hsubc
          have hraw : fd ∈ rawFDsImp df thr :=
            List.mem_of_mem_filter (dedupByPair_mem _ fd ((detectFDsImp_mem df thr fd).1 hfd))
          rcases rawFDsImp_det_shape df thr fd hraw with
            ⟨d, _, hdet, hdun⟩ | ⟨q, hq, hdet, _⟩
          · rw [hdet] at hsubc
            have hdc : d = c :=
              Finset.mem_singleton.1 (hsubc (Finset.mem_singleton_self d))
            rw [hdc] at hdun
            exact hdun hu
          · rw [hdet] at hsubc
            have hqmem := List.mem_sublistsLen.1 hq
            have hqnd : q.Nodup := hqmem.1.nodup hnd
            have hle : q.toFinset.card ≤ ({c} : Finset String).card :=
              Finset.card_le_card hsubc
            rw [List.toFinset_card_of_nodup hqnd, hqmem.2, Finset.card_singleton] at hle
            omega
        have hfix : closureIter (detectFDsImp df thr) 10 {c} = {c} :=
          closureIter_fixed _ _ hdets 10
        rw [hfix] at hcl
        have hcols : df.cols = [c] := nodup_toFinset_singleton df.cols c hnd hcl.symm
        obtain ⟨fd, hfd⟩ := List.exists_mem_of_ne_nil _ hfds
        have hraw : fd ∈ rawFDsImp df thr :=
          List.mem_of_mem_filter (dedupByPair_mem _ fd ((detectFDsImp_mem df thr fd).1 hfd))
        rcases rawFDsImp_det_shape df thr fd hraw with
          ⟨d, hdm, _, hdun⟩ | ⟨q, hq, _, _⟩
        · rw [hcols] at hdm
          have hdc : d = c := List.mem_singleton.1 hdm
          rw [hdc] at hdun
          exact absurd hu hdun
        · have hqmem := List.mem_sublistsLen.1 hq
          rw [hcols] at hqmem
          have hlen := hqmem.1.length_le
          rw [hqmem.2] at hlen
          simp at hlen
      · exact absurd hc (List.not_mem_nil _)

/-- C2 counterexample: on a two-row frame whose column `c` holds the
integer 1 and the string "1", `c` is row-unique with no duplicates and no
nulls, so the base detector returns the size-1 candidate key containing
`c` — yet `c` fails to determine column `d` at the configured threshold
0.85, because the two values stringify identically. -/
theorem unique_column_key_without_determination :
    nuniqueCol dfMixed "c" = dfMixed.nRows ∧ hasNullCol dfMixed "c" = false ∧
    ({"c"} : Finset String) ∈
      detectKeysOrig dfMixed (detectFDsOrig dfMixed (85 / 100)) (85 / 100) ∧
    fdConfidence dfMixed ["c"] ["d"] < 85 / 100 := by decide

/-- C2 amended: the acceptance conditions in the claim hold for the
improved detector — a single column is returned as a size-1 candidate key
only when it is row-unique, null-free, and determines every other column
with FD confidence at the threshold.  The base detector checks no FD
confidence at all: it returns a size-1 key exactly for each row-unique,
null-free column. -/
theorem single_column_key_conditions (df : DFrame) (thr : ℚ) (c : String)
    (hnd : df.cols.Nodup) :
    (({c} : Finset String) ∈ detectKeysImp df (detectFDsImp df thr) thr →
      hasNullCol df c = false ∧ nuniqueCol df c = df.nRows ∧
      ∀ b ∈ df.cols, b ≠ c → thr ≤ fdConfidenceImp df [c] [b]) ∧
    (({c} : Finset String) ∈ detectKeysOrig df (detectFDsOrig df thr) thr ↔
      c ∈ df.cols ∧ nuniqueCol df c = df.nRows ∧ hasNullCol df c = false) :=
  ⟨fun hmem => detectKeysImp_singleton_conditions df thr c hnd hmem,
   detectKeysOrig_singleton df (detectFDsOrig df thr) thr hnd c⟩

/-- Witness for C2's amended theorem: on `dfW` the improved detector
returns the key containing `c`, and the theorem yields its acceptance
conditions; the base-detector equivalence is exercised in both
directions. -/
theorem single_column_key_conditions_witness :
    (({"c"} : Finset String) ∈ detectKeysImp dfW (detectFDsImp dfW (9 / 10)) (9 / 10)) ∧
    (hasNullCol dfW "c" = false ∧ nuniqueCol dfW "c" = dfW.nRows ∧
      ∀ b ∈ dfW.cols, b ≠ "c" → (9 / 10 : ℚ) ≤ fdConfidenceImp dfW ["c"] [b]) ∧
    (({"c"} : Finset String) ∈ detectKeysOrig dfW (detectFDsOrig dfW (9 / 10)) (9 / 10)) :=
  ⟨by decide,
   (single_column_key_conditions dfW (9 / 10) "c" (by decide)).1 (by decide),
   (single_column_key_conditions dfW (9 / 10) "c" (by decide)).2.mpr (by decide)⟩

end NormEngine
